import Mathlib

/-!
# Verification of the lo1 workspace orchestrator core

Shallow embedding of the pure algorithmic core of the lo1 CLI
(dependency DAG construction, service filter resolution, endpoint
registry, hosts-file block editing, config-schema port validation,
compose wait polling, the service-start / workspace-start /
workspace-stop control skeletons and the state store), together with
proofs of the specified properties.

JavaScript maps keyed by object keys are embedded as association lists
that preserve insertion order (JS string-keyed objects enumerate in
insertion order); JS strings are embedded as `List Char` where index
arithmetic matters (`indexOf`/`slice`), and as `String` elsewhere.
Fallible code is embedded with `Except`; unbounded loops take a fuel
argument and the proofs show the fuel bound is never reached on the
stated inputs.
-/

namespace Lo1

/-! ## Hosts-file block management

Embedding of `generateHostsBlock`, `replaceHostsBlock` and
`removeHostsBlock` (hosts/index.ts).  `String.indexOf` is embedded as
`firstIdx`, returning `none` for JS `-1`; `slice` is `take`/`drop` on
`List Char`. -/

def MARKER_START : List Char := "# lo1-start".toList

def MARKER_END : List Char := "# lo1-end".toList

/-- JS `haystack.indexOf(needle)`: index of the first occurrence of
`needle` as a contiguous substring, `none` when absent. -/
def firstIdx (needle : List Char) : List Char → Option Nat
  | [] => if needle.isPrefixOf [] then some 0 else none
  | c :: rest =>
    if needle.isPrefixOf (c :: rest) then some 0
    else (firstIdx needle rest).map (· + 1)

def generateHostsBlock (domains : List String) : List Char :=
  if domains.length = 0 then [] else
    let domainList := String.intercalate " " domains
    let lines := [MARKER_START, ("127.0.0.1 " ++ domainList).toList,
                  ("::1 " ++ domainList).toList, MARKER_END]
    (List.intercalate ['\n'] lines) ++ ['\n']

def replaceHostsBlock (currentContent block : List Char) : List Char :=
  match firstIdx MARKER_START currentContent, firstIdx MARKER_END currentContent with
  | some startIdx, some endIdx =>
    let before := currentContent.take startIdx
    let after := currentContent.drop (endIdx + MARKER_END.length + 1)
    before ++ block ++ after
  | _, _ =>
    let separator : List Char :=
      if currentContent.getLast? = some '\n' then [] else ['\n']
    currentContent ++ separator ++ block

def removeHostsBlock (currentContent : List Char) : List Char :=
  match firstIdx MARKER_START currentContent, firstIdx MARKER_END currentContent with
  | some startIdx, some endIdx =>
    currentContent.take startIdx ++
      currentContent.drop (endIdx + MARKER_END.length + 1)
  | _, _ => currentContent

/-! ### Substring machinery for `firstIdx` -/

theorem prefix_append_of_le {n a b : List Char} (h : n <+: a ++ b)
    (hl : n.length ≤ a.length) : n <+: a := by
  have h' := List.prefix_iff_eq_take.mp h
  rw [List.take_append_of_le_length hl] at h'
  exact List.prefix_iff_eq_take.mpr h'

theorem prefix_append_split {n a b : List Char} (h : n <+: a ++ b)
    (hl : a.length ≤ n.length) :
    n.take a.length = a ∧ n.drop a.length <+: b := by
  obtain ⟨t, ht⟩ := h
  constructor
  · have := congrArg (List.take a.length) ht
    rwa [List.take_append_of_le_length hl, List.take_left] at this
  · have := congrArg (List.drop a.length) ht
    rw [List.drop_append_of_le_length hl, List.drop_left] at this
    exact ⟨t, this⟩

theorem infix_iff_exists_drop {n l : List Char} :
    n <:+: l ↔ ∃ j, n <+: l.drop j := by
  constructor
  · rintro ⟨t, s, rfl⟩
    refine ⟨t.length, ?_⟩
    rw [List.append_assoc, List.drop_left]
    exact ⟨s, rfl⟩
  · rintro ⟨j, h⟩
    exact h.isInfix.trans (List.drop_suffix j l).isInfix

theorem firstIdx_eq_some {n l : List Char} {i : Nat}
    (hocc : n <+: l.drop i) (hmin : ∀ j < i, ¬ n <+: l.drop j) :
    firstIdx n l = some i := by
  induction l generalizing i with
  | nil =>
    have : i = 0 := by
      by_contra hne
      exact hmin 0 (Nat.pos_of_ne_zero hne) (by simpa using hocc)
    subst this
    simp only [List.drop_nil] at hocc
    simp [firstIdx, List.isPrefixOf_iff_prefix, hocc]
  | cons c rest ih =>
    by_cases hp : n <+: c :: rest
    · have : i = 0 := by
        by_contra hne
        exact hmin 0 (Nat.pos_of_ne_zero hne) (by simpa using hp)
      subst this
      simp [firstIdx, List.isPrefixOf_iff_prefix, hp]
    · have hi : i ≠ 0 := by
        rintro rfl
        exact hp (by simpa using hocc)
      obtain ⟨i', rfl⟩ := Nat.exists_eq_succ_of_ne_zero hi
      have h1 : n <+: rest.drop i' := by simpa using hocc
      have h2 : ∀ j < i', ¬ n <+: rest.drop j := by
        intro j hj hc
        exact hmin (j + 1) (by omega) (by simpa using hc)
      simp [firstIdx, List.isPrefixOf_iff_prefix, hp, ih h1 h2]

theorem firstIdx_eq_none {n l : List Char} (hne : n ≠ [])
    (h : ¬ n <:+: l) : firstIdx n l = none := by
  induction l with
  | nil =>
    simp [firstIdx, List.isPrefixOf_iff_prefix, hne]
  | cons c rest ih =>
    have hp : ¬ n <+: c :: rest := fun hc => h hc.isInfix
    have hrest : ¬ n <:+: rest := fun hc => h (hc.trans (List.suffix_cons c rest).isInfix)
    simp [firstIdx, List.isPrefixOf_iff_prefix, hp, ih hrest]

/-- Occurrences of `n` starting strictly inside `a` are impossible when `n`
is not an infix of `a` and no nonempty tail of `n` is a prefix of the known
continuation `lead`. -/
theorem no_occ_before_lead {n a lead rest : List Char}
    (hpre : ¬ n <:+: a)
    (hb : ∀ k < n.length, 0 < k → ¬ n.drop k <+: lead)
    (hlen : n.length ≤ lead.length + 1) :
    ∀ j < a.length, ¬ n <+: (a ++ lead ++ rest).drop j := by
  intro j hj hocc
  rw [List.append_assoc, List.drop_append_of_le_length (Nat.le_of_lt hj)] at hocc
  by_cases hfit : n.length ≤ (a.drop j).length
  · exact hpre (infix_iff_exists_drop.mpr ⟨j, prefix_append_of_le hocc hfit⟩)
  · push_neg at hfit
    obtain ⟨_, htail⟩ := prefix_append_split hocc (Nat.le_of_lt hfit)
    have hlendrop : (a.drop j).length = a.length - j := List.length_drop j a
    have hk0 : 0 < (a.drop j).length := by
      rw [hlendrop]; omega
    have hklt : (a.drop j).length < n.length := hfit
    have hdlen : (n.drop (a.drop j).length).length ≤ lead.length := by
      rw [List.length_drop]; omega
    exact hb (a.drop j).length hklt hk0 (prefix_append_of_le htail hdlen)

/-- Infix occurrences in `A ++ Y` come from `A`, from `Y`, or from a
nonempty tail of `n` being a prefix of `Y`. -/
theorem not_infix_append_general {n A Y : List Char}
    (hA : ¬ n <:+: A) (hY : ¬ n <:+: Y)
    (hspan : ∀ k < n.length, 0 < k → ¬ n.drop k <+: Y) :
    ¬ n <:+: A ++ Y := by
  intro h
  obtain ⟨j, hocc⟩ := infix_iff_exists_drop.mp h
  by_cases hj : j < A.length
  · rw [List.drop_append_of_le_length (Nat.le_of_lt hj)] at hocc
    by_cases hfit : n.length ≤ (A.drop j).length
    · exact hA (infix_iff_exists_drop.mpr ⟨j, prefix_append_of_le hocc hfit⟩)
    · push_neg at hfit
      obtain ⟨_, htail⟩ := prefix_append_split hocc (Nat.le_of_lt hfit)
      have hk0 : 0 < (A.drop j).length := by
        rw [List.length_drop]; omega
      exact hspan (A.drop j).length hfit hk0 htail
  · push_neg at hj
    rw [List.drop_append_eq_append_drop, List.drop_eq_nil_of_le hj,
      List.nil_append] at hocc
    exact hY (infix_iff_exists_drop.mpr ⟨j - A.length, hocc⟩)

/-- No nonempty tail of the start marker is a prefix of the start marker
(the marker has no self-overlap). -/
theorem start_no_border :
    ∀ k < MARKER_START.length, 0 < k → ¬ MARKER_START.drop k <+: MARKER_START := by
  decide

/-- No nonempty tail of the end marker is a prefix of the end marker. -/
theorem end_no_border :
    ∀ k < MARKER_END.length, 0 < k → ¬ MARKER_END.drop k <+: MARKER_END := by
  decide

/-- No nonempty tail of the end marker is a prefix of the start marker. -/
theorem end_tail_not_prefix_start :
    ∀ k < MARKER_END.length, 0 < k → ¬ MARKER_END.drop k <+: MARKER_START := by
  decide

theorem end_tail_not_prefix_start_mid (mid : List Char) :
    ∀ k < MARKER_END.length, 0 < k →
      ¬ MARKER_END.drop k <+: MARKER_START ++ mid := by
  intro k hk hk0 h
  have hlen : (MARKER_END.drop k).length ≤ MARKER_START.length := by
    have h9 : MARKER_END.length = 9 := by decide
    have h11 : MARKER_START.length = 11 := by decide
    rw [List.length_drop, h9, h11]
    omega
  exact end_tail_not_prefix_start k hk hk0 (prefix_append_of_le h hlen)

/-- The first occurrence of `n` in `A ++ n ++ rest` is at position
`A.length` when `n` does not occur in `A` and has no self-overlap. -/
theorem firstIdx_at_boundary {n A rest : List Char} (hA : ¬ n <:+: A)
    (hb : ∀ k < n.length, 0 < k → ¬ n.drop k <+: n) :
    firstIdx n (A ++ n ++ rest) = some A.length := by
  apply firstIdx_eq_some
  · rw [List.append_assoc, List.drop_left]
    exact ⟨rest, rfl⟩
  · exact no_occ_before_lead hA hb (by omega)

theorem replaceHostsBlock_found {X B : List Char} {s e : Nat}
    (hs : firstIdx MARKER_START X = some s) (he : firstIdx MARKER_END X = some e) :
    replaceHostsBlock X B = X.take s ++ B ++ X.drop (e + MARKER_END.length + 1) := by
  simp [replaceHostsBlock, hs, he]

theorem replaceHostsBlock_absent {X B : List Char}
    (hs : firstIdx MARKER_START X = none) :
    replaceHostsBlock X B =
      X ++ (if X.getLast? = some '\n' then [] else ['\n']) ++ B := by
  cases h2 : firstIdx MARKER_END X <;> simp [replaceHostsBlock, hs, h2]

theorem removeHostsBlock_found {X : List Char} {s e : Nat}
    (hs : firstIdx MARKER_START X = some s) (he : firstIdx MARKER_END X = some e) :
    removeHostsBlock X = X.take s ++ X.drop (e + MARKER_END.length + 1) := by
  simp [removeHostsBlock, hs, he]

theorem removeHostsBlock_absent {X : List Char}
    (hs : firstIdx MARKER_START X = none) : removeHostsBlock X = X := by
  cases h2 : firstIdx MARKER_END X <;> simp [removeHostsBlock, hs, h2]

/-- Shape of a well-formed hosts block: empty, or the exact sentinel
structure produced by `generateHostsBlock`, whose body contains no stray
end marker. -/
def GoodBlock (B : List Char) : Prop :=
  B = [] ∨ ∃ mid, B = MARKER_START ++ mid ++ MARKER_END ++ ['\n'] ∧
    ¬ MARKER_END <:+: MARKER_START ++ mid

theorem marker_start_length : MARKER_START.length = 11 := by decide

theorem marker_end_length : MARKER_END.length = 9 := by decide

theorem marker_start_ne_nil : MARKER_START ≠ [] := by decide

/-- Round trip: removing the block after inserting it into marker-free
content that ends with a newline restores the content exactly. -/
theorem roundtrip_of_goodBlock {X B : List Char}
    (hXS : ¬ MARKER_START <:+: X) (hXE : ¬ MARKER_END <:+: X)
    (hnl : X.getLast? = some '\n') (hB : GoodBlock B) :
    removeHostsBlock (replaceHostsBlock X B) = X := by
  have hfs : firstIdx MARKER_START X = none :=
    firstIdx_eq_none marker_start_ne_nil hXS
  have hsep : (if X.getLast? = some '\n' then ([] : List Char) else ['\n']) = [] :=
    if_pos hnl
  rcases hB with rfl | ⟨mid, rfl, hmid⟩
  · rw [replaceHostsBlock_absent hfs, hsep, List.append_nil, List.append_nil]
    exact removeHostsBlock_absent hfs
  · rw [replaceHostsBlock_absent hfs, hsep, List.append_nil]
    set B := MARKER_START ++ mid ++ MARKER_END ++ ['\n'] with hBdef
    have hA' : ¬ MARKER_END <:+: X ++ (MARKER_START ++ mid) :=
      not_infix_append_general hXE hmid (end_tail_not_prefix_start_mid mid)
    have hshape : X ++ B =
        X ++ (MARKER_START ++ mid) ++ MARKER_END ++ ['\n'] := by
      simp [hBdef, List.append_assoc]
    have hshapeS : X ++ B =
        X ++ MARKER_START ++ (mid ++ MARKER_END ++ ['\n']) := by
      simp [hBdef, List.append_assoc]
    have hs : firstIdx MARKER_START (X ++ B) = some X.length := by
      rw [hshapeS]
      exact firstIdx_at_boundary hXS start_no_border
    have he : firstIdx MARKER_END (X ++ B) =
        some (X ++ (MARKER_START ++ mid)).length := by
      rw [hshape]
      exact firstIdx_at_boundary hA' end_no_border
    rw [removeHostsBlock_found hs he, List.take_left]
    have hdropLen : (X ++ (MARKER_START ++ mid)).length + MARKER_END.length + 1 =
        (X ++ B).length := by
      simp [hBdef, List.length_append, marker_start_length, marker_end_length]
      omega
    rw [hdropLen, List.drop_eq_nil_of_le (le_refl _), List.append_nil]

/-- Replacing when a well-formed block is present rewrites only the
bracketed region (block plus its trailing newline). -/
theorem replace_only_bracketed {pre mid post B : List Char}
    (hp1 : ¬ MARKER_START <:+: pre) (hp2 : ¬ MARKER_END <:+: pre)
    (hmid : ¬ MARKER_END <:+: MARKER_START ++ mid) :
    replaceHostsBlock (pre ++ MARKER_START ++ mid ++ MARKER_END ++ ['\n'] ++ post) B
      = pre ++ B ++ post := by
  set X := pre ++ MARKER_START ++ mid ++ MARKER_END ++ ['\n'] ++ post with hXdef
  have hA' : ¬ MARKER_END <:+: pre ++ (MARKER_START ++ mid) :=
    not_infix_append_general hp2 hmid (end_tail_not_prefix_start_mid mid)
  have hshapeS : X = pre ++ MARKER_START ++ (mid ++ MARKER_END ++ ['\n'] ++ post) := by
    simp [hXdef, List.append_assoc]
  have hshapeE : X = pre ++ (MARKER_START ++ mid) ++ MARKER_END ++ (['\n'] ++ post) := by
    simp [hXdef, List.append_assoc]
  have hs : firstIdx MARKER_START X = some pre.length := by
    rw [hshapeS]
    exact firstIdx_at_boundary hp1 start_no_border
  have he : firstIdx MARKER_END X = some (pre ++ (MARKER_START ++ mid)).length := by
    rw [hshapeE]
    exact firstIdx_at_boundary hA' end_no_border
  rw [replaceHostsBlock_found hs he]
  have htake : X.take pre.length = pre := by
    have : X = pre ++ (MARKER_START ++ mid ++ MARKER_END ++ ['\n'] ++ post) := by
      simp [hXdef, List.append_assoc]
    rw [this, List.take_left]
  have hdrop : X.drop ((pre ++ (MARKER_START ++ mid)).length + MARKER_END.length + 1)
      = post := by
    have hX2 : X = (pre ++ MARKER_START ++ mid ++ MARKER_END ++ ['\n']) ++ post := by
      simp [hXdef, List.append_assoc]
    have hlen : (pre ++ (MARKER_START ++ mid)).length + MARKER_END.length + 1 =
        (pre ++ MARKER_START ++ mid ++ MARKER_END ++ ['\n']).length := by
      simp [List.length_append, marker_start_length, marker_end_length]
      omega
    rw [hX2, hlen, List.drop_left]
  rw [htake, hdrop]

/-- C5: `generateHostsBlock []` is empty; the remove/replace round trip
restores marker-free content that ends with a newline; and with a
well-formed block present, `replaceHostsBlock` rewrites only the
bracketed region, preserving the text before the start marker and after
the block's trailing newline. -/
theorem hostsBlock_props :
    generateHostsBlock [] = [] ∧
    (∀ X B : List Char, ¬ MARKER_START <:+: X → ¬ MARKER_END <:+: X →
      X.getLast? = some '\n' → GoodBlock B →
      removeHostsBlock (replaceHostsBlock X B) = X) ∧
    (∀ pre mid post B : List Char,
      ¬ MARKER_START <:+: pre → ¬ MARKER_END <:+: pre →
      ¬ MARKER_END <:+: MARKER_START ++ mid →
      replaceHostsBlock (pre ++ MARKER_START ++ mid ++ MARKER_END ++ ['\n'] ++ post) B
        = pre ++ B ++ post) := by
  refine ⟨rfl, ?_, ?_⟩
  · intro X B hXS hXE hnl hB
    exact roundtrip_of_goodBlock hXS hXE hnl hB
  · intro pre mid post B hp1 hp2 hmid
    exact replace_only_bracketed hp1 hp2 hmid

/-- C5 counterexample: for marker-free content that does not end with a
newline, the round trip appends a separator newline that is not removed,
so the claim as stated fails. -/
theorem hostsBlock_roundtrip_cex :
    ¬ MARKER_START <:+: "abc".toList ∧ ¬ MARKER_END <:+: "abc".toList ∧
    removeHostsBlock (replaceHostsBlock "abc".toList (generateHostsBlock ["d"]))
      ≠ "abc".toList := by
  refine ⟨by decide, by decide, by decide⟩

/-- C5 witness: the amended round trip and bracketed replacement evaluated
at concrete inputs. -/
theorem hostsBlock_props_witness :
    removeHostsBlock (replaceHostsBlock "x\n".toList (generateHostsBlock ["app"]))
      = "x\n".toList ∧
    replaceHostsBlock
      ("A\n".toList ++ MARKER_START ++ " m ".toList ++ MARKER_END ++ ['\n'] ++ "tail".toList)
      "NEW".toList
      = "A\n".toList ++ "NEW".toList ++ "tail".toList := by
  constructor
  · exact hostsBlock_props.2.1 _ _ (by decide) (by decide) (by decide)
      (Or.inr ⟨"\n127.0.0.1 app\n::1 app\n".toList, by decide, by decide⟩)
  · exact hostsBlock_props.2.2 _ _ _ _ (by decide) (by decide) (by decide)

/-! ## Workspace data model (post-validation values of the sdk schemas)

`WorkspaceConfig.services` is an association list preserving the JS
object's insertion order; keys are unique in any value produced by the
loader (JS object keys), which theorems assume as `Nodup` where needed.
JS numbers carried by validated configs are embedded as `Int`. -/

inductive Mode
  | dev
  | container
  | skip
deriving DecidableEq, Repr

structure TlsConfig where
  enabled : Bool := false
  port : Int := 443
deriving DecidableEq, Repr

structure ProxyConfig where
  enabled : Bool := true
  port : Int := 80
  tld : String := "local"
  tls : Option TlsConfig := none
deriving DecidableEq, Repr

structure ServiceHooks where
  preStart : Option String := none
  postStart : Option String := none
  preStop : Option String := none
deriving DecidableEq, Repr

structure ServiceConfig where
  type : String := "service"
  path : String := "."
  port : Option Int := none
  hostPort : Option Int := none
  mode : Mode := Mode.dev
  command : Option String := none
  containerImage : Option String := none
  compose : Option String := none
  hooks : Option ServiceHooks := none
  dependsOn : List String := []
  initTask : Bool := false
  readinessProbe : Option String := none
deriving DecidableEq, Repr

structure WorkspaceConfig where
  name : String
  services : List (String × ServiceConfig)
  proxy : Option ProxyConfig := none
deriving DecidableEq, Repr

/-! ## Endpoint registry (discovery/registry.ts, `buildEndpointRegistry`)

The JS `Map` is embedded as an association list in insertion order.
The JS guard `!service.port || service.mode === "skip"` skips a service
whose `port` is absent or `0` (falsy) or whose mode is skip. -/

structure ServiceEndpoint where
  name : String
  port : Int
  hostPort : Int
  internalUrl : String
  externalUrl : String
  proxyUrl : String
  mode : Mode
deriving DecidableEq, Repr

def tlsEnabledOf (config : WorkspaceConfig) : Bool :=
  match config.proxy.bind ProxyConfig.tls with
  | some t => t.enabled
  | none => false

def tldOf (config : WorkspaceConfig) : String :=
  (config.proxy.map ProxyConfig.tld).getD "local"

def registryEntries (wsName tld scheme : String) :
    List (String × ServiceConfig) → List (String × ServiceEndpoint)
  | [] => []
  | (name, service) :: rest =>
    match service.port with
    | none => registryEntries wsName tld scheme rest
    | some p =>
      if p = 0 ∨ service.mode = Mode.skip then
        registryEntries wsName tld scheme rest
      else
        let hostPort := service.hostPort.getD p
        (name,
          { name := name
            port := p
            hostPort := hostPort
            internalUrl := "http://" ++ name ++ ":" ++ toString p
            externalUrl := "http://localhost:" ++ toString hostPort
            proxyUrl := scheme ++ "://" ++ name ++ "." ++ wsName ++ "." ++ tld
            mode := service.mode }) :: registryEntries wsName tld scheme rest

def buildEndpointRegistry (config : WorkspaceConfig) :
    List (String × ServiceEndpoint) :=
  let tld := tldOf config
  let scheme := if tlsEnabledOf config then "https" else "http"
  registryEntries config.name tld scheme config.services

def mkEndpoint (w t s name : String) (svc : ServiceConfig) (p : Int) :
    ServiceEndpoint :=
  { name := name
    port := p
    hostPort := svc.hostPort.getD p
    internalUrl := "http://" ++ name ++ ":" ++ toString p
    externalUrl := "http://localhost:" ++ toString (svc.hostPort.getD p)
    proxyUrl := s ++ "://" ++ name ++ "." ++ w ++ "." ++ t
    mode := svc.mode }

theorem registryEntries_cons_none {w t s n0 : String} {svc0 : ServiceConfig}
    {rest : List (String × ServiceConfig)} (hport : svc0.port = none) :
    registryEntries w t s ((n0, svc0) :: rest) = registryEntries w t s rest := by
  rw [registryEntries, hport]

theorem registryEntries_cons_skip {w t s n0 : String} {svc0 : ServiceConfig}
    {rest : List (String × ServiceConfig)} {p0 : Int}
    (hport : svc0.port = some p0) (h : p0 = 0 ∨ svc0.mode = Mode.skip) :
    registryEntries w t s ((n0, svc0) :: rest) = registryEntries w t s rest := by
  rw [registryEntries, hport]
  exact if_pos h

theorem registryEntries_cons_reg {w t s n0 : String} {svc0 : ServiceConfig}
    {rest : List (String × ServiceConfig)} {p0 : Int}
    (hport : svc0.port = some p0) (h : ¬ (p0 = 0 ∨ svc0.mode = Mode.skip)) :
    registryEntries w t s ((n0, svc0) :: rest) =
      (n0, mkEndpoint w t s n0 svc0 p0) :: registryEntries w t s rest := by
  rw [registryEntries, hport]
  exact if_neg h

theorem registryEntries_mem_tail {w t s n0 : String} {svc0 : ServiceConfig}
    {rest : List (String × ServiceConfig)} :
    ∀ x, x ∈ registryEntries w t s rest →
      x ∈ registryEntries w t s ((n0, svc0) :: rest) := by
  intro x hx
  cases hport : svc0.port with
  | none => rw [registryEntries_cons_none hport]; exact hx
  | some p0 =>
    by_cases h : p0 = 0 ∨ svc0.mode = Mode.skip
    · rw [registryEntries_cons_skip hport h]; exact hx
    · rw [registryEntries_cons_reg hport h]; exact List.mem_cons_of_mem _ hx

theorem registryEntries_mem {w t s : String} {l : List (String × ServiceConfig)}
    {name : String} {ep : ServiceEndpoint} :
    (name, ep) ∈ registryEntries w t s l ↔
      ∃ svc p, (name, svc) ∈ l ∧ svc.port = some p ∧ p ≠ 0 ∧
        svc.mode ≠ Mode.skip ∧ ep = mkEndpoint w t s name svc p := by
  induction l with
  | nil => simp [registryEntries]
  | cons hd rest ih =>
    obtain ⟨n0, svc0⟩ := hd
    constructor
    · intro hmem
      cases hport : svc0.port with
      | none =>
        rw [registryEntries_cons_none hport] at hmem
        obtain ⟨svc, p, h1, h2, h3, h4, h5⟩ := ih.mp hmem
        exact ⟨svc, p, List.mem_cons_of_mem _ h1, h2, h3, h4, h5⟩
      | some p0 =>
        by_cases hskip : p0 = 0 ∨ svc0.mode = Mode.skip
        · rw [registryEntries_cons_skip hport hskip] at hmem
          obtain ⟨svc, p, h1, h2, h3, h4, h5⟩ := ih.mp hmem
          exact ⟨svc, p, List.mem_cons_of_mem _ h1, h2, h3, h4, h5⟩
        · rw [registryEntries_cons_reg hport hskip] at hmem
          push_neg at hskip
          rcases List.mem_cons.mp hmem with heq | htail
          · obtain ⟨hn, hep⟩ := Prod.ext_iff.mp heq
            simp only at hn hep
            subst hn
            exact ⟨svc0, p0, List.mem_cons_self _ _, hport, hskip.1, hskip.2, hep⟩
          · obtain ⟨svc, p, h1, h2, h3, h4, h5⟩ := ih.mp htail
            exact ⟨svc, p, List.mem_cons_of_mem _ h1, h2, h3, h4, h5⟩
    · rintro ⟨svc, p, hmem, hport, hp0, hmode, rfl⟩
      rcases List.mem_cons.mp hmem with heq | htail
      · obtain ⟨hn, hsvc⟩ := Prod.ext_iff.mp heq
        simp only at hn hsvc
        subst hn
        subst hsvc
        rw [registryEntries_cons_reg hport (by push_neg; exact ⟨hp0, hmode⟩)]
        exact List.mem_cons_self _ _
      · exact registryEntries_mem_tail _
          (ih.mpr ⟨svc, p, htail, hport, hp0, hmode, rfl⟩)

theorem assoc_unique {α β : Type} {l : List (α × β)}
    (hnd : (l.map Prod.fst).Nodup) {n : α} {a b : β}
    (ha : (n, a) ∈ l) (hb : (n, b) ∈ l) : a = b := by
  induction l with
  | nil => cases ha
  | cons hd rest ih =>
    rw [List.map_cons, List.nodup_cons] at hnd
    rcases List.mem_cons.mp ha with ha' | ha' <;>
      rcases List.mem_cons.mp hb with hb' | hb'
    · rw [← ha'] at hb'
      exact (Prod.ext_iff.mp hb'.symm).2
    · exfalso
      apply hnd.1
      have hmem : n ∈ rest.map Prod.fst := List.mem_map_of_mem Prod.fst hb'
      rw [← ha']
      exact hmem
    · exfalso
      apply hnd.1
      have hmem : n ∈ rest.map Prod.fst := List.mem_map_of_mem Prod.fst ha'
      rw [← hb']
      exact hmem
    · exact ih hnd.2 ha' hb'

theorem buildEndpointRegistry_eq (config : WorkspaceConfig) :
    buildEndpointRegistry config =
      registryEntries config.name (tldOf config)
        (if tlsEnabledOf config then "https" else "http") config.services := rfl

/-- C4 (amended): a service is registered iff it has a port whose value is
not 0 and its mode is not skip (JS falsiness treats a configured port of 0
as absent); every registered endpoint has `externalUrl`
http&#58;//localhost&#58;hostPort with `hostPort` defaulting to `port`,
`internalUrl` http&#58;//name&#58;port, and proxy scheme https exactly when
`proxy.tls.enabled` is true. -/
theorem buildEndpointRegistry_spec (config : WorkspaceConfig)
    (hnd : (config.services.map Prod.fst).Nodup) :
    (∀ name svc, (name, svc) ∈ config.services →
      ((∃ ep, (name, ep) ∈ buildEndpointRegistry config) ↔
        ∃ p, svc.port = some p ∧ p ≠ 0 ∧ svc.mode ≠ Mode.skip)) ∧
    (∀ name ep, (name, ep) ∈ buildEndpointRegistry config →
      ∃ svc p, (name, svc) ∈ config.services ∧ svc.port = some p ∧
        ep.port = p ∧ ep.hostPort = svc.hostPort.getD p ∧
        ep.internalUrl = "http://" ++ name ++ ":" ++ toString p ∧
        ep.externalUrl = "http://localhost:" ++ toString (svc.hostPort.getD p) ∧
        ep.proxyUrl = (if tlsEnabledOf config then "https" else "http") ++
          "://" ++ name ++ "." ++ config.name ++ "." ++ tldOf config) := by
  constructor
  · intro name svc hmem
    constructor
    · rintro ⟨ep, hep⟩
      rw [buildEndpointRegistry_eq] at hep
      obtain ⟨svc', p, hmem', hport', hp0, hmode, _⟩ := registryEntries_mem.mp hep
      have : svc' = svc := assoc_unique hnd hmem' hmem
      subst this
      exact ⟨p, hport', hp0, hmode⟩
    · rintro ⟨p, hport, hp0, hmode⟩
      refine ⟨mkEndpoint config.name (tldOf config)
        (if tlsEnabledOf config then "https" else "http") name svc p, ?_⟩
      rw [buildEndpointRegistry_eq]
      exact registryEntries_mem.mpr ⟨svc, p, hmem, hport, hp0, hmode, rfl⟩
  · intro name ep hep
    rw [buildEndpointRegistry_eq] at hep
    obtain ⟨svc, p, hmem, hport, _, _, rfl⟩ := registryEntries_mem.mp hep
    exact ⟨svc, p, hmem, hport, rfl, rfl, rfl, rfl, rfl⟩

def endpointCexConfig : WorkspaceConfig :=
  { name := "w", services := [("a", { port := some 0 })] }

/-- C4 counterexample: a service with configured port 0 and default mode
dev has a port and a non-skip mode but is not registered, because the JS
guard treats the falsy port 0 as absent. -/
theorem buildEndpointRegistry_cex :
    (∃ svc, ("a", svc) ∈ endpointCexConfig.services ∧
      svc.port ≠ none ∧ svc.mode ≠ Mode.skip) ∧
    buildEndpointRegistry endpointCexConfig = [] := by
  refine ⟨⟨{ port := some 0 }, List.mem_cons_self _ _, by decide, by decide⟩, ?_⟩
  decide

/-- C4 witness: a service with port 3000 and hostPort 8080 is registered
in a TLS-enabled workspace. -/
theorem buildEndpointRegistry_spec_witness :
    ∃ ep, ("api", ep) ∈ buildEndpointRegistry
      { name := "ws"
        services := [("api", { port := some 3000, hostPort := some 8080 })]
        proxy := some { tls := some { enabled := true } } } :=
  ((buildEndpointRegistry_spec _ (by decide)).1 "api"
      { port := some 3000, hostPort := some 8080 }
      (List.mem_cons_self _ _)).mpr ⟨3000, rfl, by decide, by decide⟩

/-! ## State store (orchestrator/state.ts) -/

structure ServiceState where
  runner : String
  pid : Option Int := none
  containerId : Option String := none
deriving DecidableEq, Repr

structure WorkspaceState where
  workspaceName : String
  projectName : String
  fileArgs : List String
  workspaceDir : String
  services : List (String × ServiceState)
deriving DecidableEq, Repr

/-- Embedding of `readState`: the whole body is inside try/catch, so a
failing `readFile` (missing or unreadable file) and a failing
`JSON.parse` (invalid JSON) both yield `null`; the function is total and
never raises.  The raw-text JSON parser is a builtin abstracted as an
argument. -/
def readState (readResult : Except Unit String)
    (parseJson : String → Except Unit WorkspaceState) : Option WorkspaceState :=
  match readResult with
  | Except.error _ => none
  | Except.ok raw =>
    match parseJson raw with
    | Except.error _ => none
    | Except.ok st => some st

inductive StopEvent
  | phase (p : String)
  | serviceStopping (s : String)
  | serviceStopped (s : String)
deriving DecidableEq, Repr

inductive StopAction
  | stopHandle (s : String)
  | composeDown (projectName : String)
  | removeStateFile
  | runHook (h : String)
deriving DecidableEq, Repr

/-- Control skeleton of `stopWorkspace` (orchestrator/stop.ts): events
emitted and external actions taken, as a function of the state read from
disk.  When the state is absent the function emits the two phases and
performs no action. -/
def stopWorkspace (state? : Option WorkspaceState)
    (preStopHook : Option String) (clean : Bool) :
    List StopEvent × List StopAction :=
  let ev0 := [StopEvent.phase "Reading workspace state"]
  match state? with
  | none => (ev0 ++ [StopEvent.phase "No running workspace found"], [])
  | some state =>
    let handles := state.services.map Prod.fst
    let hookEv : List StopEvent := match preStopHook with
      | some _ => [StopEvent.phase "Running preStop hook"]
      | none => []
    let hookActs : List StopAction := match preStopHook with
      | some _ => [StopAction.runHook "workspace:preStop"]
      | none => []
    let stopEv : List StopEvent :=
      if handles.length > 0 then
        [StopEvent.phase "Stopping services"] ++
          handles.flatMap (fun h => [StopEvent.serviceStopping h, StopEvent.serviceStopped h])
      else []
    let stopActs := handles.map StopAction.stopHandle
    let phase := if clean then "Removing infrastructure (volumes + orphans)"
      else "Stopping infrastructure"
    (ev0 ++ hookEv ++ stopEv ++ [StopEvent.phase phase, StopEvent.phase "Stopped"],
      hookActs ++ stopActs ++
        [StopAction.composeDown state.projectName, StopAction.removeStateFile])

/-- C10: `readState` never raises — a missing or unreadable state file
and an invalid-JSON state file all produce `null` — and `stopWorkspace`
invoked in any such situation emits the phase "No running workspace
found" and performs no stop, composeDown, or state-file removal; a
corrupt state file is treated identically to an absent one. -/
theorem readState_total_and_stop_noop :
    (∀ parseJson, readState (Except.error ()) parseJson = none) ∧
    (∀ raw parseJson, parseJson raw = Except.error () →
      readState (Except.ok raw) parseJson = none) ∧
    (∀ raw parseJson, parseJson raw = Except.error () →
      readState (Except.ok raw) parseJson = readState (Except.error ()) parseJson) ∧
    (∀ readResult parseJson preStopHook clean,
      readState readResult parseJson = none →
      stopWorkspace (readState readResult parseJson) preStopHook clean =
        ([StopEvent.phase "Reading workspace state",
          StopEvent.phase "No running workspace found"], [])) := by
  refine ⟨fun _ => rfl, ?_, ?_, ?_⟩
  · intro raw parseJson h
    simp [readState, h]
  · intro raw parseJson h
    simp [readState, h]
  · intro readResult parseJson preStopHook clean h
    rw [h]
    rfl

/-- C10 witness: a concrete corrupt state file yields `none` and a no-op
stop. -/
theorem readState_total_and_stop_noop_witness :
    readState (Except.ok "not json") (fun _ => Except.error ()) = none ∧
    stopWorkspace (readState (Except.ok "not json") (fun _ => Except.error ()))
        none false =
      ([StopEvent.phase "Reading workspace state",
        StopEvent.phase "No running workspace found"], []) := by
  constructor
  · exact readState_total_and_stop_noop.2.1 "not json" (fun _ => Except.error ()) rfl
  · exact readState_total_and_stop_noop.2.2.2 (Except.ok "not json")
      (fun _ => Except.error ()) none false rfl

/-! ## Config schema: port fields (sdk serviceConfigSchema)

The source declares `port: z.number().optional()` and
`hostPort: z.number().optional()` with no `.int()` or `.positive()`
refinement; the loader rejects a manifest exactly when the schema does
(`ConfigError`). -/

inductive JsonValue
  | num (n : Int)
  | str (s : String)
  | boolean (b : Bool)
  | null
deriving DecidableEq, Repr

/-- zod `z.number().optional()` applied to an optional object field. -/
def zNumberOptional : Option JsonValue → Except String (Option Int)
  | none => Except.ok none
  | some (JsonValue.num n) => Except.ok (some n)
  | some _ => Except.error "Expected number"

/-- Validation of the `port` and `hostPort` fields of
`serviceConfigSchema`. -/
def checkServicePorts (port hostPort : Option JsonValue) :
    Except String (Option Int × Option Int) :=
  match zNumberOptional port with
  | Except.error e => Except.error e
  | Except.ok p =>
    match zNumberOptional hostPort with
    | Except.error e => Except.error e
    | Except.ok hp => Except.ok (p, hp)

/-- C9 counterexample: a manifest whose service has `port: -7` is accepted
by the schema (and hence by `loadWorkspaceConfig`), although -7 is not a
positive integer, so such manifests are not rejected with a
`ConfigError`. -/
theorem checkServicePorts_cex :
    checkServicePorts (some (JsonValue.num (-7))) none =
      Except.ok (some (-7), none) ∧ ¬ (0 : Int) < -7 := by
  exact ⟨rfl, by decide⟩

/-- C9 (amended): accepted port fields are exactly absent-or-numeric
values — every numeric value, positive or not, integral or not, is
accepted — and a present non-numeric port or hostPort is rejected (the
loader's `ConfigError` path). -/
theorem checkServicePorts_amended :
    (∀ port hostPort p hp,
      checkServicePorts port hostPort = Except.ok (p, hp) →
      ((port = none ∧ p = none) ∨
        ∃ n, port = some (JsonValue.num n) ∧ p = some n) ∧
      ((hostPort = none ∧ hp = none) ∨
        ∃ n, hostPort = some (JsonValue.num n) ∧ hp = some n)) ∧
    (∀ port hostPort, (∀ n, port ≠ some (JsonValue.num n)) → port ≠ none →
      ∃ e, checkServicePorts port hostPort = Except.error e) ∧
    (∀ n : Int, checkServicePorts (some (JsonValue.num n)) none =
      Except.ok (some n, none)) := by
  refine ⟨?_, ?_, fun n => rfl⟩
  · intro port hostPort p hp h
    constructor
    · match port with
      | none =>
        left
        refine ⟨rfl, ?_⟩
        match hostPort with
        | none => cases h; rfl
        | some (JsonValue.num m) => cases h; rfl
        | some (JsonValue.str s) => cases h
        | some (JsonValue.boolean b) => cases h
        | some JsonValue.null => cases h
      | some (JsonValue.num k) =>
        right
        refine ⟨k, rfl, ?_⟩
        match hostPort with
        | none => cases h; rfl
        | some (JsonValue.num m) => cases h; rfl
        | some (JsonValue.str s) => cases h
        | some (JsonValue.boolean b) => cases h
        | some JsonValue.null => cases h
      | some (JsonValue.str s) => cases h
      | some (JsonValue.boolean b) => cases h
      | some JsonValue.null => cases h
    · match hostPort with
      | none =>
        left
        refine ⟨rfl, ?_⟩
        match port with
        | none => cases h; rfl
        | some (JsonValue.num m) => cases h; rfl
        | some (JsonValue.str s) => cases h
        | some (JsonValue.boolean b) => cases h
        | some JsonValue.null => cases h
      | some (JsonValue.num k) =>
        match port with
        | none => right; refine ⟨k, rfl, ?_⟩; cases h; rfl
        | some (JsonValue.num m) => right; refine ⟨k, rfl, ?_⟩; cases h; rfl
        | some (JsonValue.str s) => cases h
        | some (JsonValue.boolean b) => cases h
        | some JsonValue.null => cases h
      | some (JsonValue.str s) =>
        match port with
        | none => cases h
        | some (JsonValue.num m) => cases h
        | some (JsonValue.str s2) => cases h
        | some (JsonValue.boolean b) => cases h
        | some JsonValue.null => cases h
      | some (JsonValue.boolean b) =>
        match port with
        | none => cases h
        | some (JsonValue.num m) => cases h
        | some (JsonValue.str s2) => cases h
        | some (JsonValue.boolean b2) => cases h
        | some JsonValue.null => cases h
      | some JsonValue.null =>
        match port with
        | none => cases h
        | some (JsonValue.num m) => cases h
        | some (JsonValue.str s2) => cases h
        | some (JsonValue.boolean b2) => cases h
        | some JsonValue.null => cases h
  · intro port hostPort hnum hnone
    match port with
    | none => exact absurd rfl hnone
    | some (JsonValue.num n) => exact absurd rfl (hnum n)
    | some (JsonValue.str s) => exact ⟨"Expected number", rfl⟩
    | some (JsonValue.boolean b) => exact ⟨"Expected number", rfl⟩
    | some JsonValue.null => exact ⟨"Expected number", rfl⟩

/-- C9 witness: the amended acceptance evaluated at a concrete accepted
manifest fragment and a concrete rejected one. -/
theorem checkServicePorts_amended_witness :
    checkServicePorts (some (JsonValue.num 8080)) none =
      Except.ok (some 8080, none) ∧
    ∃ e, checkServicePorts (some (JsonValue.str "80")) none =
      Except.error e := by
  constructor
  · exact checkServicePorts_amended.2.2 8080
  · exact checkServicePorts_amended.2.1 (some (JsonValue.str "80")) none
      (by intro n h; cases h) (by intro h; cases h)

/-! ## Service starter (orchestrator/service.ts, `startService`)

Control skeleton with injected outcomes for the awaited collaborators
(hook executor, runner start, readiness probe).  The trace of actions
records the order of external effects. -/

def BUILTIN_TYPES : List String := ["service", "app"]

inductive RunnerKind
  | process
  | container
  | compose
deriving DecidableEq, Repr

/-- Runner selection chain of `startService`: plugin container first,
then dev-mode builtin process, then container mode with an image or a
per-service compose file; otherwise `ServiceStartError`. -/
def chooseRunner (svc : ServiceConfig) (hasPluginContainer : Bool) :
    Option RunnerKind :=
  if hasPluginContainer then some RunnerKind.container
  else if svc.mode = Mode.dev ∧ BUILTIN_TYPES.contains svc.type then
    some RunnerKind.process
  else if svc.mode = Mode.container ∧
      (svc.containerImage ≠ none ∨ svc.compose ≠ none) then
    some RunnerKind.compose
  else none

inductive StartAction
  | hookRun (name : String)
  | runnerStart (kind : RunnerKind)
  | probe (url : String)
  | handleStop
deriving DecidableEq, Repr

structure StartScenario where
  hasPluginContainer : Bool := false
  preStart : Except String Unit := Except.ok ()
  runnerStart : Except String Unit := Except.ok ()
  probeResult : Except String Unit := Except.ok ()
  postStart : Except String Unit := Except.ok ()
deriving Repr

/-- Embedding of `startService`: preStart hook (if defined) → runner
selection and start → readiness probe (if configured), stopping the
handle and re-raising on probe failure → postStart hook (if defined) →
handle.  Returns the outcome and the ordered action trace. -/
def startService (svc : ServiceConfig) (sc : StartScenario) :
    Except String RunnerKind × List StartAction :=
  let hasPre := (svc.hooks.bind ServiceHooks.preStart).isSome
  let preTrace : List StartAction :=
    if hasPre then [StartAction.hookRun "preStart"] else []
  match (if hasPre then sc.preStart else Except.ok ()) with
  | Except.error e => (Except.error e, preTrace)
  | Except.ok _ =>
    match chooseRunner svc sc.hasPluginContainer with
    | none => (Except.error "ServiceStartError", preTrace)
    | some runner =>
      match sc.runnerStart with
      | Except.error e => (Except.error e, preTrace)
      | Except.ok _ =>
        let trace1 := preTrace ++ [StartAction.runnerStart runner]
        match svc.readinessProbe with
        | some url =>
          match sc.probeResult with
          | Except.error e =>
            (Except.error e,
              trace1 ++ [StartAction.probe url, StartAction.handleStop])
          | Except.ok _ =>
            let trace2 := trace1 ++ [StartAction.probe url]
            let hasPost := (svc.hooks.bind ServiceHooks.postStart).isSome
            match (if hasPost then sc.postStart else Except.ok ()) with
            | Except.error e =>
              (Except.error e,
                trace2 ++ if hasPost then [StartAction.hookRun "postStart"] else [])
            | Except.ok _ =>
              (Except.ok runner,
                trace2 ++ if hasPost then [StartAction.hookRun "postStart"] else [])
        | none =>
          let hasPost := (svc.hooks.bind ServiceHooks.postStart).isSome
          match (if hasPost then sc.postStart else Except.ok ()) with
          | Except.error e =>
            (Except.error e,
              trace1 ++ if hasPost then [StartAction.hookRun "postStart"] else [])
          | Except.ok _ =>
            (Except.ok runner,
              trace1 ++ if hasPost then [StartAction.hookRun "postStart"] else [])

/-- C7: with a readiness probe configured, a created runner handle and a
failing probe, `startService` stops the handle it created and re-raises
the probe's error: the result is the probe error, the trace ends with
probe followed by handleStop after the runner start, and the postStart
hook never runs. -/
theorem startService_probe_failure (svc : ServiceConfig) (sc : StartScenario)
    (url : String) (e : String) (runner : RunnerKind)
    (hprobe : svc.readinessProbe = some url)
    (hfail : sc.probeResult = Except.error e)
    (hpre : sc.preStart = Except.ok ())
    (hrun : sc.runnerStart = Except.ok ())
    (hrunner : chooseRunner svc sc.hasPluginContainer = some runner) :
    (startService svc sc).1 = Except.error e ∧
    (startService svc sc).2 =
      (if (svc.hooks.bind ServiceHooks.preStart).isSome then
        [StartAction.hookRun "preStart"] else []) ++
        [StartAction.runnerStart runner, StartAction.probe url,
          StartAction.handleStop] ∧
    StartAction.handleStop ∈ (startService svc sc).2 ∧
    StartAction.hookRun "postStart" ∉ (startService svc sc).2 := by
  have hstep : startService svc sc =
      (Except.error e,
        (if (svc.hooks.bind ServiceHooks.preStart).isSome then
          [StartAction.hookRun "preStart"] else []) ++
          [StartAction.runnerStart runner, StartAction.probe url,
            StartAction.handleStop]) := by
    unfold startService
    by_cases hhp : (svc.hooks.bind ServiceHooks.preStart).isSome
    · simp only [hhp, if_true, hpre, hrunner, hrun, hprobe, hfail]
      rfl
    · simp only [hhp, if_false, Bool.false_eq_true, hrunner, hrun, hprobe, hfail]
      rfl
  rw [hstep]
  refine ⟨rfl, rfl, ?_, ?_⟩
  · simp
  · by_cases hhp : (svc.hooks.bind ServiceHooks.preStart).isSome <;>
      simp [hhp]

def probeSvc : ServiceConfig :=
  { type := "service"
    mode := Mode.dev
    command := some "sleep 60"
    readinessProbe := some "http://localhost:1/unused" }

def probeScenario : StartScenario :=
  { probeResult := Except.error "ReadinessProbeError" }

/-- C7 witness: the probe-failure teardown at a concrete dev-mode service
with a probe. -/
theorem startService_probe_failure_witness :
    (startService probeSvc probeScenario).1
      = Except.error "ReadinessProbeError" ∧
    StartAction.handleStop ∈ (startService probeSvc probeScenario).2 := by
  have h := startService_probe_failure probeSvc probeScenario
    "http://localhost:1/unused" "ReadinessProbeError" RunnerKind.process
    rfl rfl rfl rfl rfl
  exact ⟨h.1, h.2.2.1⟩

/-! ## Orchestrator start: stale-workspace cleanup (orchestrator/start.ts) -/

inductive WsAction
  | stopHandle (name : String)
  | composeDown (projectName : String)
  | removeStateFile
  | loadConfig
deriving DecidableEq, Repr

/-- Embedding of `cleanupStaleWorkspace`: the hydrated process/container
handles swallow their own stop errors (their `stop` bodies catch and
ignore), and `removeState` swallows unlink errors, but the `composeDown`
await has no try/catch around it in `cleanupStaleWorkspace` or
`startWorkspace`: a `ComposeExecError` raised by it propagates. -/
def cleanupStaleWorkspace (state? : Option WorkspaceState)
    (composeDownResult : Except String Unit) :
    Except String Unit × List WsAction :=
  match state? with
  | none => (Except.ok (), [])
  | some state =>
    let stops := state.services.map (fun p => WsAction.stopHandle p.1)
    match composeDownResult with
    | Except.error e =>
      (Except.error e, stops ++ [WsAction.composeDown state.projectName])
    | Except.ok _ =>
      (Except.ok (),
        stops ++ [WsAction.composeDown state.projectName, WsAction.removeStateFile])

/-- Prefix of `startWorkspace`: `await cleanupStaleWorkspace(...)` runs
before config loading with no try/catch, so a cleanup failure aborts the
run. -/
def startWorkspacePrefix (state? : Option WorkspaceState)
    (composeDownResult : Except String Unit) :
    Except String Unit × List WsAction :=
  match cleanupStaleWorkspace state? composeDownResult with
  | (Except.error e, acts) => (Except.error e, acts)
  | (Except.ok _, acts) => (Except.ok (), acts ++ [WsAction.loadConfig])

def staleState : WorkspaceState :=
  { workspaceName := "old"
    projectName := "lo1-old"
    fileArgs := ["-f", ".lo1/compose.generated.yaml"]
    workspaceDir := "."
    services := [("svc", { runner := "process", pid := some 99999 })] }

/-- C8: with a stale state file present and `composeDown` on the recorded
project failing with a `ComposeExecError`, the error propagates out of
`startWorkspace` and the new run is never reached — stale cleanup is not
best-effort, contradicting the documented recovery behavior. -/
theorem staleCleanup_not_best_effort :
    (startWorkspacePrefix (some staleState)
        (Except.error "ComposeExecError: docker compose down failed")).1
      = Except.error "ComposeExecError: docker compose down failed" ∧
    WsAction.loadConfig ∉
      (startWorkspacePrefix (some staleState)
        (Except.error "ComposeExecError: docker compose down failed")).2 ∧
    (startWorkspacePrefix (some staleState) (Except.ok ())).1 = Except.ok () := by
  refine ⟨rfl, ?_, rfl⟩
  decide

/-! ## Compose wait (runner/compose.ts, `composeWait`)

The polling loop is embedded over an explicit finite list of `ps`
snapshots, each tagged with the elapsed wall time observed at the
timeout check of that iteration; the real loop is unbounded, so a run
that consumes every supplied snapshot without reaching a terminal state
is reported as `outOfPolls`. -/

structure ComposeServiceStatus where
  Name : String := ""
  Service : String
  State : String
  Health : String := ""
  ExitCode : Int := 0
deriving DecidableEq, Repr

/-- JS `new Set(list)` iteration order: first occurrences kept. -/
def dedupKeepFirst (l : List String) : List String :=
  l.foldl (fun acc s => if acc.contains s then acc else acc ++ [s]) []

/-- Last-write-wins lookup mirroring the `statusByService` map built with
`map.set` over the snapshot rows. -/
def lastStatusFor (statuses : List ComposeServiceStatus) (service : String) :
    Option ComposeServiceStatus :=
  statuses.foldl (fun acc st => if st.Service = service then some st else acc) none

inductive SvcCheck
  | failed (msg : String)
  | stillPending (entry : String)
  | ready
deriving DecidableEq, Repr

/-- Per-target classification inside the polling loop body. -/
def checkService (mustExit : List String) (statuses : List ComposeServiceStatus)
    (service : String) : SvcCheck :=
  match lastStatusFor statuses service with
  | none => SvcCheck.stillPending (service ++ " (not found)")
  | some status =>
    if status.State = "running" then
      if status.Health = "unhealthy" then
        SvcCheck.failed ("Service \"" ++ service ++ "\" is unhealthy")
      else if status.Health = "starting" then
        SvcCheck.stillPending (service ++ " (health: starting)")
      else if mustExit.contains service then
        SvcCheck.stillPending (service ++ " (waiting to exit)")
      else SvcCheck.ready
    else if status.State = "exited" then
      if status.ExitCode ≠ 0 then
        SvcCheck.failed ("Service \"" ++ service ++ "\" exited with code " ++
          toString status.ExitCode)
      else SvcCheck.ready
    else SvcCheck.stillPending (service ++ " (" ++ status.State ++ ")")

inductive PollOutcome
  | failed (msg : String)
  | allReady
  | somePending (entries : List String)
deriving DecidableEq, Repr

/-- One pass over the target services: throw at the first failure,
otherwise collect the pending entries in iteration order (`allReady`
holds exactly when no entry was collected). -/
def pollGo (mustExit : List String) (statuses : List ComposeServiceStatus) :
    List String → List String → PollOutcome
  | [], pending =>
    if pending = [] then PollOutcome.allReady else PollOutcome.somePending pending
  | svc :: rest, pending =>
    match checkService mustExit statuses svc with
    | SvcCheck.failed msg => PollOutcome.failed msg
    | SvcCheck.stillPending entry => pollGo mustExit statuses rest (pending ++ [entry])
    | SvcCheck.ready => pollGo mustExit statuses rest pending

inductive WaitResult
  | done
  | failed (msg : String)
  | outOfPolls
deriving DecidableEq, Repr

def composeWaitRun (targets mustExit : List String) (timeout : Int) :
    List (List ComposeServiceStatus × Int) → WaitResult
  | [] => WaitResult.outOfPolls
  | (statuses, elapsed) :: rest =>
    match pollGo mustExit statuses targets [] with
    | PollOutcome.failed msg => WaitResult.failed msg
    | PollOutcome.allReady => WaitResult.done
    | PollOutcome.somePending entries =>
      if elapsed > timeout then
        WaitResult.failed ("Timed out waiting for services: " ++
          String.intercalate ", " entries)
      else composeWaitRun targets mustExit timeout rest

/-- Embedding of `composeWait`: empty target set returns immediately;
otherwise poll the snapshots in order. -/
def composeWait (services mustExit : List String) (timeout : Int)
    (polls : List (List ComposeServiceStatus × Int)) : WaitResult :=
  let targets := dedupKeepFirst services
  if targets = [] then WaitResult.done
  else composeWaitRun targets mustExit timeout polls

def firstFailure (mustExit : List String) (statuses : List ComposeServiceStatus)
    (targets : List String) : Option String :=
  targets.findSome? (fun svc =>
    match checkService mustExit statuses svc with
    | SvcCheck.failed msg => some msg
    | _ => none)

def pendingEntriesOf (mustExit : List String)
    (statuses : List ComposeServiceStatus) (targets : List String) : List String :=
  targets.filterMap (fun svc =>
    match checkService mustExit statuses svc with
    | SvcCheck.stillPending e => some e
    | _ => none)

theorem pollGo_spec (mustExit : List String) (statuses : List ComposeServiceStatus) :
    ∀ targets acc,
      (∃ msg, firstFailure mustExit statuses targets = some msg ∧
        pollGo mustExit statuses targets acc = PollOutcome.failed msg) ∨
      (firstFailure mustExit statuses targets = none ∧
        pollGo mustExit statuses targets acc =
          (if acc ++ pendingEntriesOf mustExit statuses targets = [] then
            PollOutcome.allReady
          else
            PollOutcome.somePending (acc ++ pendingEntriesOf mustExit statuses targets))) := by
  intro targets
  induction targets with
  | nil =>
    intro acc
    right
    simp [firstFailure, pendingEntriesOf, pollGo]
  | cons svc rest ih =>
    intro acc
    cases hc : checkService mustExit statuses svc with
    | failed msg =>
      left
      refine ⟨msg, ?_, ?_⟩
      · simp [firstFailure, List.findSome?_cons, hc]
      · simp [pollGo, hc]
    | stillPending e =>
      have hstep : pollGo mustExit statuses (svc :: rest) acc =
          pollGo mustExit statuses rest (acc ++ [e]) := by
        simp [pollGo, hc]
      have hff : firstFailure mustExit statuses (svc :: rest) =
          firstFailure mustExit statuses rest := by
        simp [firstFailure, List.findSome?_cons, hc]
      have hpe : pendingEntriesOf mustExit statuses (svc :: rest) =
          e :: pendingEntriesOf mustExit statuses rest := by
        simp [pendingEntriesOf, List.filterMap_cons, hc]
      rcases ih (acc ++ [e]) with ⟨msg, hf, hp⟩ | ⟨hf, hp⟩
      · left
        exact ⟨msg, by rw [hff]; exact hf, by rw [hstep]; exact hp⟩
      · right
        refine ⟨by rw [hff]; exact hf, ?_⟩
        rw [hstep, hp, hpe]
        have hne1 : acc ++ [e] ++ pendingEntriesOf mustExit statuses rest ≠ [] := by
          simp
        have hne2 : acc ++ e :: pendingEntriesOf mustExit statuses rest ≠ [] := by
          simp
        rw [if_neg hne1, if_neg hne2]
        congr 1
        simp [List.append_assoc]
    | ready =>
      have hstep : pollGo mustExit statuses (svc :: rest) acc =
          pollGo mustExit statuses rest acc := by
        simp [pollGo, hc]
      have hff : firstFailure mustExit statuses (svc :: rest) =
          firstFailure mustExit statuses rest := by
        simp [firstFailure, List.findSome?_cons, hc]
      have hpe : pendingEntriesOf mustExit statuses (svc :: rest) =
          pendingEntriesOf mustExit statuses rest := by
        simp [pendingEntriesOf, List.filterMap_cons, hc]
      rcases ih acc with ⟨msg, hf, hp⟩ | ⟨hf, hp⟩
      · left
        exact ⟨msg, by rw [hff]; exact hf, by rw [hstep]; exact hp⟩
      · right
        exact ⟨by rw [hff]; exact hf, by rw [hstep, hpe]; exact hp⟩

theorem checkService_pending_shape {mustExit : List String}
    {statuses : List ComposeServiceStatus} {svc e : String}
    (h : checkService mustExit statuses svc = SvcCheck.stillPending e) :
    ∃ s, e = svc ++ s := by
  rw [checkService] at h
  cases hl : lastStatusFor statuses svc with
  | none =>
    rw [hl] at h
    simp only [] at h
    exact ⟨" (not found)", by cases h; rfl⟩
  | some status =>
    rw [hl] at h
    simp only [] at h
    by_cases hr : status.State = "running"
    · rw [if_pos hr] at h
      by_cases hu : status.Health = "unhealthy"
      · rw [if_pos hu] at h; cases h
      · rw [if_neg hu] at h
        by_cases hs : status.Health = "starting"
        · rw [if_pos hs] at h
          exact ⟨" (health: starting)", by cases h; rfl⟩
        · rw [if_neg hs] at h
          by_cases hm : mustExit.contains svc
          · rw [if_pos hm] at h
            exact ⟨" (waiting to exit)", by cases h; rfl⟩
          · rw [if_neg hm] at h; cases h
    · rw [if_neg hr] at h
      by_cases he : status.State = "exited"
      · rw [if_pos he] at h
        by_cases hc : status.ExitCode ≠ 0
        · rw [if_pos hc] at h; cases h
        · rw [if_neg hc] at h; cases h
      · rw [if_neg he] at h
        refine ⟨" (" ++ status.State ++ ")", ?_⟩
        cases h
        simp [String.append_assoc]

theorem checkService_failed_of_bad {mustExit : List String}
    {statuses : List ComposeServiceStatus} {svc : String}
    {status : ComposeServiceStatus}
    (hl : lastStatusFor statuses svc = some status)
    (hbad : (status.State = "running" ∧ status.Health = "unhealthy") ∨
      (status.State = "exited" ∧ status.ExitCode ≠ 0)) :
    ∃ msg, checkService mustExit statuses svc = SvcCheck.failed msg := by
  rw [checkService, hl]
  simp only []
  rcases hbad with ⟨hr, hu⟩ | ⟨he, hc⟩
  · exact ⟨_, by rw [if_pos hr, if_pos hu]⟩
  · have hr : status.State ≠ "running" := by rw [he]; decide
    exact ⟨_, by rw [if_neg hr, if_pos he, if_pos hc]⟩

theorem firstFailure_some_of_mem {mustExit : List String}
    {statuses : List ComposeServiceStatus} {svc m : String}
    {targets : List String} (hmem : svc ∈ targets)
    (hc : checkService mustExit statuses svc = SvcCheck.failed m) :
    ∃ m', firstFailure mustExit statuses targets = some m' := by
  induction targets with
  | nil => cases hmem
  | cons hd rest ih =>
    cases hhd : checkService mustExit statuses hd with
    | failed msg => exact ⟨msg, by simp [firstFailure, List.findSome?_cons, hhd]⟩
    | stillPending e =>
      have : svc ∈ rest := by
        rcases List.mem_cons.mp hmem with rfl | h
        · rw [hc] at hhd; cases hhd
        · exact h
      obtain ⟨m', hm'⟩ := ih this
      exact ⟨m', by simp [firstFailure, List.findSome?_cons, hhd]; exact hm'⟩
    | ready =>
      have : svc ∈ rest := by
        rcases List.mem_cons.mp hmem with rfl | h
        · rw [hc] at hhd; cases hhd
        · exact h
      obtain ⟨m', hm'⟩ := ih this
      exact ⟨m', by simp [firstFailure, List.findSome?_cons, hhd]; exact hm'⟩

theorem composeWaitRun_head {targets mustExit : List String} {timeout : Int}
    {statuses : List ComposeServiceStatus} {elapsed : Int}
    {rest : List (List ComposeServiceStatus × Int)} :
    composeWaitRun targets mustExit timeout ((statuses, elapsed) :: rest) =
      match pollGo mustExit statuses targets [] with
      | PollOutcome.failed msg => WaitResult.failed msg
      | PollOutcome.allReady => WaitResult.done
      | PollOutcome.somePending entries =>
        if elapsed > timeout then
          WaitResult.failed ("Timed out waiting for services: " ++
            String.intercalate ", " entries)
        else composeWaitRun targets mustExit timeout rest := rfl

/-- C6: ready classification of a target service (for docker health values
"", starting, healthy, unhealthy), immediate failure on an unhealthy or
non-zero-exit snapshot, return once every target is ready, and a timeout
error naming each still-pending target. -/
theorem composeWait_spec :
    (∀ services mustExit timeout polls, dedupKeepFirst services ≠ [] →
      composeWait services mustExit timeout polls =
        composeWaitRun (dedupKeepFirst services) mustExit timeout polls) ∧
    (∀ mustExit statuses svc status, lastStatusFor statuses svc = some status →
      mustExit.contains svc = false →
      (status.Health = "" ∨ status.Health = "starting" ∨
        status.Health = "healthy" ∨ status.Health = "unhealthy") →
      (checkService mustExit statuses svc = SvcCheck.ready ↔
        (status.State = "running" ∧
          (status.Health = "" ∨ status.Health = "healthy")) ∨
        (status.State = "exited" ∧ status.ExitCode = 0))) ∧
    (∀ mustExit statuses svc status, lastStatusFor statuses svc = some status →
      mustExit.contains svc = true →
      (checkService mustExit statuses svc = SvcCheck.ready ↔
        status.State = "exited" ∧ status.ExitCode = 0)) ∧
    (∀ targets mustExit timeout statuses elapsed rest svc status,
      svc ∈ targets → lastStatusFor statuses svc = some status →
      ((status.State = "running" ∧ status.Health = "unhealthy") ∨
        (status.State = "exited" ∧ status.ExitCode ≠ 0)) →
      ∃ msg, composeWaitRun targets mustExit timeout
        ((statuses, elapsed) :: rest) = WaitResult.failed msg) ∧
    (∀ targets mustExit timeout statuses elapsed rest,
      (∀ svc ∈ targets, checkService mustExit statuses svc = SvcCheck.ready) →
      composeWaitRun targets mustExit timeout ((statuses, elapsed) :: rest) =
        WaitResult.done) ∧
    (∀ targets mustExit timeout statuses elapsed rest entries,
      pollGo mustExit statuses targets [] = PollOutcome.somePending entries →
      elapsed > timeout →
      composeWaitRun targets mustExit timeout ((statuses, elapsed) :: rest) =
        WaitResult.failed ("Timed out waiting for services: " ++
          String.intercalate ", " entries) ∧
      ∀ svc ∈ targets, checkService mustExit statuses svc ≠ SvcCheck.ready →
        ∃ s, svc ++ s ∈ entries) := by
  refine ⟨?_, ?_, ?_, ?_, ?_, ?_⟩
  · intro services mustExit timeout polls hne
    rw [composeWait]
    simp only [if_neg hne]
  · intro mustExit statuses svc status hl hme hwf
    have hnm : svc ∉ mustExit := by simpa using hme
    rw [checkService, hl]
    simp only []
    by_cases hr : status.State = "running"
    · rw [if_pos hr]
      rcases hwf with hh | hh | hh | hh <;> rw [hh] <;> simp [hnm, hr]
    · rw [if_neg hr]
      by_cases he : status.State = "exited"
      · rw [if_pos he]
        by_cases hc : status.ExitCode = 0
        · simp [hc, hr, he]
        · simp [hc, hr, he]
      · simp [hr, he]
  · intro mustExit statuses svc status hl hme
    have hm : svc ∈ mustExit := by simpa using hme
    rw [checkService, hl]
    simp only []
    by_cases hr : status.State = "running"
    · rw [if_pos hr]
      by_cases hu : status.Health = "unhealthy"
      · simp [hu, hr]
      · by_cases hs : status.Health = "starting"
        · simp [hu, hs, hr]
        · simp [hu, hs, hm, hr]
    · rw [if_neg hr]
      by_cases he : status.State = "exited"
      · rw [if_pos he]
        by_cases hc : status.ExitCode = 0
        · simp [hc, he]
        · simp [hc, he]
      · simp [hr, he]
  · intro targets mustExit timeout statuses elapsed rest svc status hmem hl hbad
    obtain ⟨m, hm⟩ := @checkService_failed_of_bad mustExit _ _ _ hl hbad
    obtain ⟨m', hm'⟩ := firstFailure_some_of_mem hmem hm
    rcases pollGo_spec mustExit statuses targets [] with ⟨msg, _, hp⟩ | ⟨hf, _⟩
    · exact ⟨msg, by rw [composeWaitRun_head, hp]⟩
    · rw [hf] at hm'; cases hm'
  · intro targets mustExit timeout statuses elapsed rest hready
    have hff : firstFailure mustExit statuses targets = none := by
      rw [firstFailure, List.findSome?_eq_none_iff]
      intro svc hmem
      rw [hready svc hmem]
    have hpe : pendingEntriesOf mustExit statuses targets = [] := by
      rw [pendingEntriesOf, List.filterMap_eq_nil_iff]
      intro svc hmem
      rw [hready svc hmem]
    rcases pollGo_spec mustExit statuses targets [] with ⟨msg, hf, _⟩ | ⟨_, hp⟩
    · rw [hff] at hf; cases hf
    · rw [hpe] at hp
      simp at hp
      rw [composeWaitRun_head, hp]
  · intro targets mustExit timeout statuses elapsed rest entries hp ht
    constructor
    · rw [composeWaitRun_head, hp]
      simp only []
      rw [if_pos ht]
    · intro svc hmem hnotready
      rcases pollGo_spec mustExit statuses targets [] with ⟨msg, _, hp'⟩ | ⟨hf, hp'⟩
      · rw [hp] at hp'; cases hp'
      · rw [hp] at hp'
        have hentries : entries = pendingEntriesOf mustExit statuses targets := by
          by_cases hnil : ([] : List String) ++ pendingEntriesOf mustExit statuses targets = []
          · rw [if_pos hnil] at hp'; cases hp'
          · rw [if_neg hnil] at hp'
            cases hp'
            simp
        cases hc : checkService mustExit statuses svc with
        | failed m =>
          obtain ⟨m', hm'⟩ := firstFailure_some_of_mem hmem hc
          rw [hf] at hm'; cases hm'
        | stillPending e =>
          obtain ⟨s, rfl⟩ := checkService_pending_shape hc
          refine ⟨s, ?_⟩
          rw [hentries, pendingEntriesOf]
          exact List.mem_filterMap.mpr ⟨svc, hmem, by rw [hc]⟩
        | ready => exact absurd hc hnotready

def dbStatus : ComposeServiceStatus :=
  { Name := "p-db-1", Service := "db", State := "running", Health := "healthy" }

/-- C6 witness: a healthy running target is classified ready and the wait
returns at the first snapshot. -/
theorem composeWait_spec_witness :
    checkService [] [dbStatus] "db" = SvcCheck.ready ∧
    composeWaitRun ["db"] [] 300000 [([dbStatus], 5)] = WaitResult.done := by
  constructor
  · exact (composeWait_spec.2.1 [] [dbStatus] "db" dbStatus rfl rfl
      (Or.inr (Or.inr (Or.inl rfl)))).mpr (Or.inl ⟨rfl, Or.inr rfl⟩)
  · exact composeWait_spec.2.2.2.2.1 ["db"] [] 300000 [dbStatus] 5 []
      (by decide)

/-! ## Service filter (orchestrator/filter.ts, `resolveServiceFilter`)

BFS closure over `dependsOn`.  The JS code dereferences
`config.services[name].dependsOn` for every dequeued name without
checking presence; for a name missing from the map this is a TypeError,
embedded as `FilterOutcome.typeError`.  The unbounded while loop takes
fuel, shown sufficient below. -/

def serviceNames (config : WorkspaceConfig) : List String :=
  config.services.map Prod.fst

def ValidRefs (config : WorkspaceConfig) : Prop :=
  ∀ p ∈ config.services, ∀ d ∈ p.2.dependsOn, d ∈ serviceNames config

instance (config : WorkspaceConfig) : Decidable (ValidRefs config) := by
  unfold ValidRefs
  exact List.decidableBAll _ _

def findService (config : WorkspaceConfig) (name : String) :
    Option (String × ServiceConfig) :=
  config.services.find? (fun p => p.1 == name)

/-- `config.services[name].dependsOn` for a name known to be present;
defaults to `[]` (never reached on validated accesses). -/
def depsOfService (config : WorkspaceConfig) (name : String) : List String :=
  ((findService config name).map (fun p => p.2.dependsOn)).getD []

inductive FilterOutcome
  | filterError (msg : String)
  | typeError
  | ok (result : List String)
  | outOfFuel
deriving DecidableEq, Repr

def bfsLoop (config : WorkspaceConfig) :
    Nat → List String → List String → FilterOutcome
  | 0, queue, result =>
    if queue = [] then FilterOutcome.ok result else FilterOutcome.outOfFuel
  | fuel + 1, queue, result =>
    match queue with
    | [] => FilterOutcome.ok result
    | name :: queueRest =>
      if result.contains name then bfsLoop config fuel queueRest result
      else
        match findService config name with
        | none => FilterOutcome.typeError
        | some entry =>
          let result2 := result ++ [name]
          let pushed := entry.2.dependsOn.filter (fun d => !result2.contains d)
          bfsLoop config fuel (queueRest ++ pushed) result2

def filterFuel (config : WorkspaceConfig) (requested : List String) : Nat :=
  requested.length +
    (config.services.map (fun p => p.2.dependsOn.length)).sum + 1

def resolveServiceFilter (requested : List String) (config : WorkspaceConfig) :
    FilterOutcome :=
  match requested.find? (fun name => !(serviceNames config).contains name) with
  | some name =>
    FilterOutcome.filterError
      ("Unknown service \"" ++ name ++ "\" in --services filter")
  | none => bfsLoop config (filterFuel config requested) requested []

/-- Remaining dependency-count potential: total `dependsOn` lengths of
services not yet in `result`; bounds the number of future queue pushes. -/
def depsPotential (config : WorkspaceConfig) (result : List String) : Nat :=
  ((config.services.filter (fun p => !result.contains p.1)).map
    (fun p => p.2.dependsOn.length)).sum

def potAux (l : List (String × ServiceConfig)) (result : List String) : Nat :=
  ((l.filter (fun p => !result.contains p.1)).map
    (fun p => p.2.dependsOn.length)).sum

theorem depsPotential_eq_potAux (config : WorkspaceConfig) (result : List String) :
    depsPotential config result = potAux config.services result := rfl

theorem potAux_drop_head {p : String × ServiceConfig}
    {rest : List (String × ServiceConfig)} {res : List String}
    (h : p.1 ∈ res) : potAux (p :: rest) res = potAux rest res := by
  have hc : res.contains p.1 = true := by simpa using h
  simp [potAux, List.filter_cons, hc, h]

theorem potAux_keep_head {p : String × ServiceConfig}
    {rest : List (String × ServiceConfig)} {res : List String}
    (h : p.1 ∉ res) :
    potAux (p :: rest) res = p.2.dependsOn.length + potAux rest res := by
  have hc : res.contains p.1 = false := by simpa using h
  simp [potAux, List.filter_cons, hc, h]

theorem potAux_mono (result : List String) (name : String) :
    ∀ l, potAux l (result ++ [name]) ≤ potAux l result := by
  intro l
  induction l with
  | nil => simp [potAux]
  | cons p rest ih =>
    by_cases h2 : p.1 ∈ result ++ [name]
    · rw [potAux_drop_head h2]
      by_cases h1 : p.1 ∈ result
      · rw [potAux_drop_head h1]
        exact ih
      · rw [potAux_keep_head h1]
        omega
    · have h1 : p.1 ∉ result := fun hc => h2 (by simp [List.mem_append, hc])
      rw [potAux_keep_head h2, potAux_keep_head h1]
      omega

theorem potAux_after {result : List String} {name : String}
    {entry : String × ServiceConfig} :
    ∀ {l : List (String × ServiceConfig)},
    result.contains name = false →
    l.find? (fun p => p.1 == name) = some entry →
    potAux l (result ++ [name]) + entry.2.dependsOn.length ≤ potAux l result := by
  intro l
  induction l with
  | nil => intro _ hfind; cases hfind
  | cons p rest ih =>
    intro hnc hfind
    have hnmem : name ∉ result := by simpa using hnc
    by_cases hbeq : p.1 = name
    · have hfind' : entry = p := by
        rw [List.find?_cons_of_pos] at hfind
        · cases hfind; rfl
        · simp [hbeq]
      subst hfind'
      have hkeep : entry.1 ∉ result := by rw [hbeq]; exact hnmem
      have hdrop : entry.1 ∈ result ++ [name] := by
        rw [hbeq]
        simp
      rw [potAux_keep_head hkeep, potAux_drop_head hdrop]
      have := potAux_mono result name rest
      omega
    · have hfind' : rest.find? (fun p => p.1 == name) = some entry := by
        rw [List.find?_cons_of_neg] at hfind
        · exact hfind
        · simp [hbeq]
      by_cases hc : p.1 ∈ result
      · have hc2 : p.1 ∈ result ++ [name] := by simp [List.mem_append, hc]
        rw [potAux_drop_head hc, potAux_drop_head hc2]
        exact ih hnc hfind'
      · have hc2 : p.1 ∉ result ++ [name] := by
          simp [List.mem_append, hc, hbeq]
        rw [potAux_keep_head hc, potAux_keep_head hc2]
        have := ih hnc hfind'
        omega

theorem depsOfService_of_find {config : WorkspaceConfig} {name : String}
    {entry : String × ServiceConfig}
    (hfind : findService config name = some entry) :
    depsOfService config name = entry.2.dependsOn := by
  rw [depsOfService, hfind]
  rfl

theorem findService_isSome_of_mem {config : WorkspaceConfig} {name : String}
    (h : name ∈ serviceNames config) : (findService config name).isSome := by
  rw [findService, List.find?_isSome]
  obtain ⟨p, hp, hfst⟩ := List.mem_map.mp h
  exact ⟨p, hp, by simp [hfst]⟩

/-- Invariant-carrying specification of the BFS loop: with every queued
and collected name a known service, the collected set closed up to the
queue, and fuel above the remaining potential, the loop returns a set
containing the queue, closed under `dependsOn`, inside the service
names, and least among dependsOn-closed supersets of `result ∪ queue`. -/
theorem bfsLoop_spec (config : WorkspaceConfig) (hrefs : ValidRefs config) :
    ∀ fuel queue result,
    (∀ x ∈ queue, x ∈ serviceNames config) →
    (∀ x ∈ result, x ∈ serviceNames config) →
    (∀ v ∈ result, ∀ d ∈ depsOfService config v, d ∈ result ∨ d ∈ queue) →
    queue.length + depsPotential config result < fuel →
    ∃ final, bfsLoop config fuel queue result = FilterOutcome.ok final ∧
      (∀ x ∈ result, x ∈ final) ∧
      (∀ x ∈ queue, x ∈ final) ∧
      (∀ x ∈ final, x ∈ serviceNames config) ∧
      (∀ v ∈ final, ∀ d ∈ depsOfService config v, d ∈ final) ∧
      (∀ T : String → Prop, (∀ x ∈ result, T x) → (∀ x ∈ queue, T x) →
        (∀ v, T v → ∀ d ∈ depsOfService config v, T d) →
        ∀ x ∈ final, T x) := by
  intro fuel
  induction fuel with
  | zero =>
    intro queue result _ _ _ hfuel
    omega
  | succ fuel ih =>
    intro queue result hq hres hcl hfuel
    cases queue with
    | nil =>
      refine ⟨result, rfl, fun x hx => hx, fun x hx => absurd hx (by simp),
        hres, ?_, ?_⟩
      · intro v hv d hd
        rcases hcl v hv d hd with h | h
        · exact h
        · cases h
      · intro T hTres _ _ x hx
        exact hTres x hx
    | cons name queueRest =>
      by_cases hmem : name ∈ result
      · have hc : result.contains name = true := by simpa using hmem
        have hstep : bfsLoop config (fuel + 1) (name :: queueRest) result =
            bfsLoop config fuel queueRest result := by
          rw [bfsLoop, hc]
          simp
        have hcl' : ∀ v ∈ result, ∀ d ∈ depsOfService config v,
            d ∈ result ∨ d ∈ queueRest := by
          intro v hv d hd
          rcases hcl v hv d hd with h | h
          · exact Or.inl h
          · rcases List.mem_cons.mp h with rfl | h'
            · exact Or.inl hmem
            · exact Or.inr h'
        have hfuel' : queueRest.length + depsPotential config result < fuel := by
          have : (name :: queueRest).length = queueRest.length + 1 := by simp
          omega
        obtain ⟨final, heq, h1, h2, h3, h4, h5⟩ :=
          ih queueRest result (fun x hx => hq x (List.mem_cons_of_mem _ hx))
            hres hcl' hfuel'
        refine ⟨final, hstep ▸ heq, h1, ?_, h3, h4, ?_⟩
        · intro x hx
          rcases List.mem_cons.mp hx with rfl | hx'
          · exact h1 x hmem
          · exact h2 x hx'
        · intro T hTres hTq hTcl x hx
          exact h5 T hTres (fun y hy => hTq y (List.mem_cons_of_mem _ hy)) hTcl x hx
      · have hc : result.contains name = false := by simpa using hmem
        have hns : (findService config name).isSome :=
          findService_isSome_of_mem (hq name (List.mem_cons_self _ _))
        obtain ⟨entry, hfind⟩ := Option.isSome_iff_exists.mp hns
        have hdeps : depsOfService config name = entry.2.dependsOn :=
          depsOfService_of_find hfind
        have hentrymem : entry ∈ config.services :=
          List.mem_of_find?_eq_some hfind
        set result2 := result ++ [name] with hres2
        set pushed := entry.2.dependsOn.filter (fun d => !result2.contains d)
          with hpushed
        have hstep : bfsLoop config (fuel + 1) (name :: queueRest) result =
            bfsLoop config fuel (queueRest ++ pushed) result2 := by
          rw [bfsLoop, hc, hfind]
          simp only [Bool.false_eq_true, if_false]
        have hq' : ∀ x ∈ queueRest ++ pushed, x ∈ serviceNames config := by
          intro x hx
          rcases List.mem_append.mp hx with h | h
          · exact hq x (List.mem_cons_of_mem _ h)
          · exact hrefs entry hentrymem x (List.mem_of_mem_filter h)
        have hres' : ∀ x ∈ result2, x ∈ serviceNames config := by
          intro x hx
          rcases List.mem_append.mp hx with h | h
          · exact hres x h
          · rcases List.mem_singleton.mp h with rfl
            exact hq x (List.mem_cons_self _ _)
        have hcl' : ∀ v ∈ result2, ∀ d ∈ depsOfService config v,
            d ∈ result2 ∨ d ∈ queueRest ++ pushed := by
          intro v hv d hd
          rcases List.mem_append.mp hv with hvr | hvn
          · rcases hcl v hvr d hd with h | h
            · exact Or.inl (List.mem_append.mpr (Or.inl h))
            · rcases List.mem_cons.mp h with rfl | h'
              · exact Or.inl (List.mem_append.mpr (Or.inr (List.mem_singleton.mpr rfl)))
              · exact Or.inr (List.mem_append.mpr (Or.inl h'))
          · rcases List.mem_singleton.mp hvn with rfl
            rw [hdeps] at hd
            by_cases hdr : d ∈ result2
            · exact Or.inl hdr
            · refine Or.inr (List.mem_append.mpr (Or.inr ?_))
              rw [hpushed]
              refine List.mem_filter.mpr ⟨hd, ?_⟩
              simp only [Bool.not_eq_true']
              simpa using hdr
        have hfuel' : (queueRest ++ pushed).length +
            depsPotential config result2 < fuel := by
          have hple : pushed.length ≤ entry.2.dependsOn.length := by
            rw [hpushed]
            exact List.length_filter_le _ _
          have hpot : depsPotential config result2 +
              entry.2.dependsOn.length ≤ depsPotential config result := by
            rw [depsPotential_eq_potAux, depsPotential_eq_potAux]
            exact potAux_after hc hfind
          have hlen : (queueRest ++ pushed).length =
              queueRest.length + pushed.length := by simp
          have hlen2 : (name :: queueRest).length = queueRest.length + 1 := by simp
          omega
        obtain ⟨final, heq, h1, h2, h3, h4, h5⟩ :=
          ih (queueRest ++ pushed) result2 hq' hres' hcl' hfuel'
        refine ⟨final, hstep ▸ heq, ?_, ?_, h3, h4, ?_⟩
        · intro x hx
          exact h1 x (List.mem_append.mpr (Or.inl hx))
        · intro x hx
          rcases List.mem_cons.mp hx with rfl | hx'
          · exact h1 x (List.mem_append.mpr (Or.inr (List.mem_singleton.mpr rfl)))
          · exact h2 x (List.mem_append.mpr (Or.inl hx'))
        · intro T hTres hTq hTcl x hx
          have hTname : T name := hTq name (List.mem_cons_self _ _)
          refine h5 T ?_ ?_ hTcl x hx
          · intro y hy
            rcases List.mem_append.mp hy with h | h
            · exact hTres y h
            · rcases List.mem_singleton.mp h with rfl
              exact hTname
          · intro y hy
            rcases List.mem_append.mp hy with h | h
            · exact hTq y (List.mem_cons_of_mem _ h)
            · have hyd : y ∈ entry.2.dependsOn := List.mem_of_mem_filter h
              rw [← hdeps] at hyd
              exact hTcl name hTname y hyd

theorem depsPotential_nil (config : WorkspaceConfig) :
    depsPotential config [] =
      (config.services.map (fun p => p.2.dependsOn.length)).sum := by
  rw [depsPotential]
  congr 1
  congr 1
  apply List.filter_eq_self.mpr
  intro p _
  simp

/-- C3 (amended): for every config whose dependsOn references all exist
and every requested list all of whose names exist, `resolveServiceFilter`
returns the least dependsOn-closed superset of the requested set; with
the full service set it returns the full set; an unknown requested name
raises a FilterError; but a config with a dangling dependsOn reference
reachable from the requested set crashes with a TypeError instead. -/
theorem resolveServiceFilter_spec (config : WorkspaceConfig)
    (requested : List String) (hrefs : ValidRefs config)
    (hreq : ∀ r ∈ requested, r ∈ serviceNames config) :
    (∃ result, resolveServiceFilter requested config = FilterOutcome.ok result ∧
      (∀ r ∈ requested, r ∈ result) ∧
      (∀ v ∈ result, ∀ d ∈ depsOfService config v, d ∈ result) ∧
      (∀ x ∈ result, x ∈ serviceNames config) ∧
      (∀ T : String → Prop, (∀ r ∈ requested, T r) →
        (∀ v, T v → ∀ d ∈ depsOfService config v, T d) →
        ∀ x ∈ result, T x) ∧
      ((∀ n ∈ serviceNames config, n ∈ requested) →
        ∀ n, n ∈ result ↔ n ∈ serviceNames config)) ∧
    (∀ requested' : List String, (∃ r ∈ requested', r ∉ serviceNames config) →
      ∃ msg, resolveServiceFilter requested' config =
        FilterOutcome.filterError msg) := by
  constructor
  · have hval : requested.find?
        (fun name => !(serviceNames config).contains name) = none := by
      rw [List.find?_eq_none]
      intro x hx
      simp only [Bool.not_eq_true', Bool.not_eq_true]
      have := hreq x hx
      simp [this]
    have hfuel : requested.length + depsPotential config [] <
        filterFuel config requested := by
      rw [depsPotential_nil, filterFuel]
      omega
    obtain ⟨final, heq, _, h2, h3, h4, h5⟩ :=
      bfsLoop_spec config hrefs (filterFuel config requested) requested []
        hreq (by intro x hx; cases hx) (by intro v hv; cases hv) hfuel
    refine ⟨final, ?_, h2, h4, h3, ?_, ?_⟩
    · rw [resolveServiceFilter, hval]
      exact heq
    · intro T hTreq hTcl x hx
      exact h5 T (by intro y hy; cases hy) hTreq hTcl x hx
    · intro hfull n
      exact ⟨h3 n, fun hn => h2 n (hfull n hn)⟩
  · intro requested' ⟨r, hr, hnotin⟩
    have : (requested'.find?
        (fun name => !(serviceNames config).contains name)).isSome := by
      rw [List.find?_isSome]
      refine ⟨r, hr, ?_⟩
      simp only [Bool.not_eq_true', Bool.not_eq_true]
      simpa using hnotin
    obtain ⟨bad, hbad⟩ := Option.isSome_iff_exists.mp this
    exact ⟨_, by rw [resolveServiceFilter, hbad]⟩

def danglingConfig : WorkspaceConfig :=
  { name := "w", services := [("a", { dependsOn := ["ghost"] })] }

/-- C3 counterexample: every requested name exists, but a dependsOn entry
reachable from the request names a missing service; the BFS dereferences
`config.services[missing].dependsOn` and crashes with a TypeError instead
of returning the closure (or a FilterError). -/
theorem resolveServiceFilter_cex :
    (∀ r ∈ ["a"], r ∈ serviceNames danglingConfig) ∧
    resolveServiceFilter ["a"] danglingConfig = FilterOutcome.typeError := by
  exact ⟨by decide, by decide⟩

def filterWitnessConfig : WorkspaceConfig :=
  { name := "w"
    services := [("db", {}), ("api", { dependsOn := ["db"] })] }

/-- C3 witness: requesting `api` pulls in its dependency `db`. -/
theorem resolveServiceFilter_spec_witness :
    ∃ result, resolveServiceFilter ["api"] filterWitnessConfig =
      FilterOutcome.ok result ∧ "api" ∈ result ∧ "db" ∈ result := by
  obtain ⟨⟨result, heq, hcontains, hclosed, _, _, _⟩, _⟩ :=
    resolveServiceFilter_spec filterWitnessConfig ["api"]
      (by decide) (by decide)
  have hapi : "api" ∈ result := hcontains "api" (by decide)
  refine ⟨result, heq, hapi, ?_⟩
  have hdep : "db" ∈ depsOfService filterWitnessConfig "api" := by decide
  exact hclosed "api" hapi "db" hdep

/-! ## Dependency DAG (dag/index.ts)

`buildDag` validates references, runs a three-colour DFS for cycle
diagnostics, then peels Kahn layers.  JS string comparison
(`Array.prototype.sort` default) is embedded as the lexicographic
comparison `strLe` on code points, and `.sort()` as an insertion sort —
extensionally equal to any sort for the distinct keys sorted here.  The
unbounded DFS recursion and the while loop take fuel, shown sufficient. -/

def charListLe : List Char → List Char → Bool
  | [], _ => true
  | _ :: _, [] => false
  | a :: as, b :: bs =>
    if a.toNat < b.toNat then true
    else if b.toNat < a.toNat then false
    else charListLe as bs

def strLe (a b : String) : Bool := charListLe a.data b.data

def insertSorted (x : String) : List String → List String
  | [] => [x]
  | y :: ys => if strLe x y then x :: y :: ys else y :: insertSorted x ys

/-- Embedding of JS `.sort()` on string arrays. -/
def sortNames (l : List String) : List String := l.foldr insertSorted []

def Edge (config : WorkspaceConfig) (x y : String) : Prop :=
  y ∈ depsOfService config x

instance (config : WorkspaceConfig) (x y : String) :
    Decidable (Edge config x y) := by
  unfold Edge
  exact List.instDecidableMemOfLawfulBEq y (depsOfService config x)

def HasCycle (config : WorkspaceConfig) : Prop :=
  ∃ v, Relation.TransGen (Edge config) v v

def WHITE : Nat := 0

def GRAY : Nat := 1

def BLACK : Nat := 2

structure DfsState where
  color : String → Nat
  parent : String → Option String

def initDfsState : DfsState := ⟨fun _ => WHITE, fun _ => none⟩

def setColor (n : String) (c : Nat) (st : DfsState) : DfsState :=
  { st with color := fun x => if x = n then c else st.color x }

def setParent (n : String) (p : String) (st : DfsState) : DfsState :=
  { st with parent := fun x => if x = n then some p else st.parent x }

inductive DagErr
  | fuelOut
  | msg (s : String)
deriving DecidableEq, Repr

/-- JS `Array.prototype.join(" → ")`. -/
def arrowJoin : List String → String
  | [] => ""
  | [x] => x
  | x :: y :: rest => x ++ " → " ++ arrowJoin (y :: rest)

/-- The `while (current && current !== dep)` parent walk of the cycle
reconstruction, pushing onto the accumulated cycle array. -/
def cycleWalk (st : DfsState) (dep : String) :
    Nat → Option String → List String → List String
  | _, none, acc => acc
  | 0, some _, acc => acc
  | f + 1, some c, acc =>
    if c = dep then acc
    else cycleWalk st dep f (st.parent c) (acc ++ [c])

def cycleMsg (config : WorkspaceConfig) (st : DfsState)
    (dep node : String) : String :=
  let cycle := (cycleWalk st dep ((serviceNames config).length + 1)
    (st.parent node) [dep, node]).reverse
  "Dependency cycle detected: " ++ arrowJoin cycle ++ " → " ++ dep

def dfsDeps (config : WorkspaceConfig)
    (visit : String → DfsState → Except DagErr DfsState) (node : String) :
    List String → DfsState → Except DagErr DfsState
  | [], st => Except.ok st
  | dep :: rest, st =>
    if st.color dep = GRAY then
      Except.error (DagErr.msg (cycleMsg config st dep node))
    else if st.color dep = WHITE then
      match visit dep (setParent dep node st) with
      | Except.error e => Except.error e
      | Except.ok st2 => dfsDeps config visit node rest st2
    else dfsDeps config visit node rest st

def dfsVisit (config : WorkspaceConfig) :
    Nat → String → DfsState → Except DagErr DfsState
  | 0, _, _ => Except.error DagErr.fuelOut
  | fuel + 1, node, st =>
    match dfsDeps config (dfsVisit config fuel) node
        (depsOfService config node) (setColor node GRAY st) with
    | Except.error e => Except.error e
    | Except.ok st2 => Except.ok (setColor node BLACK st2)

def detectLoop (config : WorkspaceConfig) (fuel : Nat) :
    List String → DfsState → Except DagErr DfsState
  | [], st => Except.ok st
  | name :: rest, st =>
    if st.color name = WHITE then
      match dfsVisit config fuel name st with
      | Except.error e => Except.error e
      | Except.ok st2 => detectLoop config fuel rest st2
    else detectLoop config fuel rest st

def detectCycles (config : WorkspaceConfig) : Except DagErr Unit :=
  match detectLoop config ((serviceNames config).length + 1)
      (serviceNames config) initDfsState with
  | Except.error e => Except.error e
  | Except.ok _ => Except.ok ()

def findUnknownDep (config : WorkspaceConfig) :
    List (String × ServiceConfig) → Option (String × String)
  | [] => none
  | (name, svc) :: rest =>
    match svc.dependsOn.find? (fun d => !(serviceNames config).contains d) with
    | some d => some (name, d)
    | none => findUnknownDep config rest

/-- Names pushed into `dependents.get(d)` while building the dependents
map: one copy of `n` per occurrence of `d` in `n`'s dependsOn. -/
def dependentsOf (config : WorkspaceConfig) (d : String) : List String :=
  config.services.flatMap
    (fun p => (p.2.dependsOn.filter (fun x => x == d)).map (fun _ => p.1))

/-- The flattened sequence of in-degree decrements performed while
processing one layer (outer loop over the layer, inner loop over each
member's dependents). -/
def decEvents (config : WorkspaceConfig) (layer : List String) : List String :=
  layer.flatMap (dependentsOf config)

/-- Sequential decrements: each event lowers the named in-degree by one
and enqueues the name when the new degree is exactly zero. -/
def applyEvents : List String → (String → Int) → List String →
    ((String → Int) × List String)
  | [], deg, acc => (deg, acc)
  | d :: rest, deg, acc =>
    let nd := deg d - 1
    applyEvents rest (fun x => if x = d then nd else deg x)
      (if nd = 0 then acc ++ [d] else acc)

def kahnLoop (config : WorkspaceConfig) :
    Nat → (String → Int) → List String → List (List String) → Int →
      (List (List String) × Int)
  | 0, _, _, layers, remaining => (layers, remaining)
  | fuel + 1, deg, current, layers, remaining =>
    if current.isEmpty then (layers, remaining)
    else
      let layers2 := layers ++ [current]
      let remaining2 := remaining - current.length
      let step := applyEvents (decEvents config current) deg []
      kahnLoop config fuel step.1 (sortNames step.2) layers2 remaining2

structure DagResult where
  layers : List (List String)
  serviceCount : Nat
deriving DecidableEq, Repr

def initialDegrees (config : WorkspaceConfig) : String → Int :=
  fun x => ((depsOfService config x).length : Int)

def buildDag (config : WorkspaceConfig) : Except String DagResult :=
  match findUnknownDep config config.services with
  | some (name, dep) =>
    Except.error ("Service \"" ++ name ++ "\" depends on unknown service \"" ++
      dep ++ "\"")
  | none =>
    match detectCycles config with
    | Except.error (DagErr.msg m) => Except.error m
    | Except.error DagErr.fuelOut => Except.error "fuel exhausted (unreachable)"
    | Except.ok _ =>
      let names := serviceNames config
      let deg0 := initialDegrees config
      let first := sortNames (names.filter (fun n => deg0 n == 0))
      let run := kahnLoop config (names.length + 1) deg0 first [] (names.length : Int)
      if run.2 > 0 then Except.error "Cycle detected in service dependencies"
      else Except.ok { layers := run.1, serviceCount := names.length }

/-! ### DFS invariants and cycle-message correctness -/

/-- The gray recursion stack linked by parent pointers: consecutive
entries are (child, parent) pairs with a dependency edge parent → child,
and the bottom entry has no parent. -/
inductive PChain (config : WorkspaceConfig) (par : String → Option String) :
    List String → Prop
  | single (v : String) : par v = none → PChain config par [v]
  | cons (v w : String) (rest : List String) :
      par v = some w → Edge config w v → PChain config par (w :: rest) →
      PChain config par (v :: w :: rest)

structure DfsInv (config : WorkspaceConfig) (st : DfsState)
    (stk : List String) : Prop where
  grayIff : ∀ x, st.color x = GRAY ↔ x ∈ stk
  nodup : stk.Nodup
  chain : stk = [] ∨ PChain config st.parent stk
  blackClosed : ∀ x, st.color x = BLACK →
    ∀ d ∈ depsOfService config x, st.color d = BLACK
  colorRange : ∀ x, st.color x = WHITE ∨ st.color x = GRAY ∨ st.color x = BLACK
  stkNames : ∀ x ∈ stk, x ∈ serviceNames config

def whiteCount (config : WorkspaceConfig) (st : DfsState) : Nat :=
  ((serviceNames config).filter (fun n => st.color n == WHITE)).length

/-- Parent-pointer precondition for visiting `node` on top of stack
`stk`. -/
def plinkOk (config : WorkspaceConfig) (st : DfsState) (node : String) :
    List String → Prop
  | [] => st.parent node = none
  | h :: _ => st.parent node = some h ∧ Edge config h node

/-- Observable effect of a successful visit: non-white nodes keep colour
and parent; any change is white-to-black. -/
def DfsPost (st st2 : DfsState) : Prop :=
  (∀ x, st.color x ≠ WHITE → st2.color x = st.color x) ∧
  (∀ x, st2.color x ≠ st.color x → st.color x = WHITE ∧ st2.color x = BLACK) ∧
  (∀ x, st2.parent x ≠ st.parent x → st2.color x = BLACK ∧ st.color x = WHITE)

theorem dfsPost_refl (st : DfsState) : DfsPost st st :=
  ⟨fun _ _ => rfl, fun _ h => absurd rfl h, fun _ h => absurd rfl h⟩

theorem dfsPost_trans {st1 st2 st3 : DfsState}
    (h12 : DfsPost st1 st2) (h23 : DfsPost st2 st3) : DfsPost st1 st3 := by
  obtain ⟨a12, b12, c12⟩ := h12
  obtain ⟨a23, b23, c23⟩ := h23
  refine ⟨?_, ?_, ?_⟩
  · intro x hx
    rw [a23 x (by rw [a12 x hx]; exact hx), a12 x hx]
  · intro x hx
    by_cases h2 : st2.color x = st1.color x
    · rw [← h2] at hx ⊢
      exact b23 x hx
    · obtain ⟨hw, hb⟩ := b12 x h2
      refine ⟨hw, ?_⟩
      by_cases h3 : st3.color x = st2.color x
      · rw [h3, hb]
      · exact (b23 x h3).2
  · intro x hx
    by_cases h2 : st2.parent x = st1.parent x
    · rw [← h2] at hx
      obtain ⟨hb, hw⟩ := c23 x hx
      refine ⟨hb, ?_⟩
      by_cases hc : st2.color x = st1.color x
      · rw [← hc, hw]
      · exact (b12 x hc).1
    · obtain ⟨hb2, hw1⟩ := c12 x h2
      refine ⟨?_, hw1⟩
      by_cases h3 : st3.color x = st2.color x
      · rw [h3, hb2]
      · exact (b23 x h3).2

theorem gray_ne_white : GRAY ≠ WHITE := by decide

theorem black_ne_white : BLACK ≠ WHITE := by decide

theorem gray_ne_black : GRAY ≠ BLACK := by decide

theorem depsOf_subset_names {config : WorkspaceConfig}
    (hrefs : ValidRefs config) (n : String) :
    ∀ d ∈ depsOfService config n, d ∈ serviceNames config := by
  intro d hd
  rw [depsOfService] at hd
  cases hfind : findService config n with
  | none => rw [hfind] at hd; cases hd
  | some entry =>
    rw [hfind] at hd
    exact hrefs entry (List.mem_of_find?_eq_some hfind) d hd

theorem whiteCount_le_of_pointwise {config : WorkspaceConfig}
    {st st2 : DfsState}
    (h : ∀ x, st2.color x = WHITE → st.color x = WHITE) :
    whiteCount config st2 ≤ whiteCount config st := by
  rw [whiteCount, whiteCount, ← List.countP_eq_length_filter,
    ← List.countP_eq_length_filter]
  apply List.countP_mono_left
  intro x _ hx
  simp only [beq_iff_eq] at hx ⊢
  exact h x hx

theorem whiteCount_lt_of_gray {config : WorkspaceConfig} {st : DfsState}
    {node : String} (hmem : node ∈ serviceNames config)
    (hwhite : st.color node = WHITE) :
    whiteCount config (setColor node GRAY st) < whiteCount config st := by
  rw [whiteCount, whiteCount]
  have hgen : ∀ l : List String, node ∈ l →
      (l.filter (fun n => (setColor node GRAY st).color n == WHITE)).length <
        (l.filter (fun n => st.color n == WHITE)).length := by
    intro l
    induction l with
    | nil => intro h; cases h
    | cons x rest ih =>
      intro hx
      have hmono : (rest.filter
          (fun n => (setColor node GRAY st).color n == WHITE)).length ≤
          (rest.filter (fun n => st.color n == WHITE)).length := by
        rw [← List.countP_eq_length_filter, ← List.countP_eq_length_filter]
        apply List.countP_mono_left
        intro y _ hy
        simp only [beq_iff_eq, setColor] at hy ⊢
        by_cases hyn : y = node
        · rw [if_pos hyn] at hy
          exact absurd hy gray_ne_white
        · rw [if_neg hyn] at hy
          exact hy
      by_cases hxn : x = node
      · subst hxn
        have h1 : ((setColor x GRAY st).color x == WHITE) = false := by
          simp [setColor, gray_ne_white]
        have h2 : (st.color x == WHITE) = true := by simp [hwhite]
        rw [List.filter_cons, List.filter_cons, h1, h2]
        simp only [Bool.false_eq_true, ite_true, ite_false, if_true, if_false,
          List.length_cons]
        omega
      · have hnode : node ∈ rest := by
          rcases List.mem_cons.mp hx with h | h
          · exact absurd h.symm hxn
          · exact h
        have hsame : ((setColor node GRAY st).color x == WHITE) =
            (st.color x == WHITE) := by
          simp [setColor, hxn]
        rw [List.filter_cons, List.filter_cons, hsame]
        cases hv : (st.color x == WHITE) with
        | true => simpa using Nat.succ_lt_succ (ih hnode)
        | false => simpa using ih hnode
  exact hgen (serviceNames config) hmem

theorem whiteCount_le_names (config : WorkspaceConfig) (st : DfsState) :
    whiteCount config st ≤ (serviceNames config).length :=
  List.length_filter_le _ _

/-- Between root visits all whites have no parent pointer set. -/
def WhiteParent (st : DfsState) : Prop :=
  ∀ x, st.color x = WHITE → st.parent x = none

theorem initDfsInv (config : WorkspaceConfig) :
    DfsInv config initDfsState [] := by
  refine ⟨?_, List.nodup_nil, Or.inl rfl, ?_, ?_, ?_⟩
  · intro x
    constructor
    · intro h
      exact absurd h.symm gray_ne_white
    · intro h
      cases h
  · intro x h
    exfalso
    have hcontra : WHITE = BLACK := h
    exact absurd hcontra (by decide)
  · intro x
    exact Or.inl rfl
  · intro x h
    cases h

theorem initWhiteParent : WhiteParent initDfsState := fun _ _ => rfl

def IsCycleList (config : WorkspaceConfig) (l : List String) : Prop :=
  l ≠ [] ∧ List.Chain' (Edge config) (l ++ [l.headD ""])

/-- The message is the arrow-joined cycle diagnostic, and its parts name
every node of an actual dependency cycle. -/
def GoodCycleMsg (config : WorkspaceConfig) (m : String) : Prop :=
  ∃ parts : List String,
    m = "Dependency cycle detected: " ++ arrowJoin parts ∧
    ∃ c, IsCycleList config c ∧ ∀ x ∈ c, x ∈ parts

theorem arrowJoin_concat {l : List String} (x : String) (h : l ≠ []) :
    arrowJoin (l ++ [x]) = arrowJoin l ++ " → " ++ x := by
  induction l with
  | nil => exact absurd rfl h
  | cons a rest ih =>
    cases rest with
    | nil => simp [arrowJoin, String.append_assoc]
    | cons b rest2 =>
      have hne : b :: rest2 ≠ [] := by simp
      have hih := ih hne
      have e1 : (a :: b :: rest2) ++ [x] = a :: ((b :: rest2) ++ [x]) := by simp
      rw [e1]
      have e2 : arrowJoin (a :: ((b :: rest2) ++ [x])) =
          a ++ " → " ++ arrowJoin ((b :: rest2) ++ [x]) := rfl
      rw [e2, hih]
      have e3 : arrowJoin (a :: b :: rest2) = a ++ " → " ++ arrowJoin (b :: rest2) := rfl
      rw [e3]
      simp [String.append_assoc]

theorem cycleWalk_spec (config : WorkspaceConfig) (st : DfsState) (d : String) :
    ∀ stk node acc fuelW, PChain config st.parent (node :: stk) →
    stk.length ≤ fuelW →
    cycleWalk st d fuelW (st.parent node) acc =
      acc ++ stk.takeWhile (fun x => x != d) := by
  intro stk
  induction stk with
  | nil =>
    intro node acc fuelW h _
    cases h with
    | single _ hnone =>
      rw [hnone]
      cases fuelW <;> simp [cycleWalk]
  | cons w rest ih =>
    intro node acc fuelW h hfuel
    cases h with
    | cons _ _ _ hpar hedge hrest =>
      rw [hpar]
      have hfuel1 : 1 ≤ fuelW := by
        simp only [List.length_cons] at hfuel
        omega
      obtain ⟨f, rfl⟩ : ∃ f, fuelW = f + 1 :=
        ⟨fuelW - 1, by omega⟩
      rw [cycleWalk]
      by_cases hwd : w = d
      · rw [if_pos hwd]
        have : ((w != d) = false) := by simp [hwd]
        simp [List.takeWhile_cons, this]
      · rw [if_neg hwd]
        have hf : rest.length ≤ f := by
          simp only [List.length_cons] at hfuel
          omega
        rw [ih w (acc ++ [w]) f hrest hf]
        have : ((w != d) = true) := by simp [hwd]
        simp [List.takeWhile_cons, this]

theorem dropWhile_ne_head {d : String} :
    ∀ l : List String, d ∈ l →
      ∃ post, l.dropWhile (fun x => x != d) = d :: post := by
  intro l
  induction l with
  | nil => intro h; cases h
  | cons x rest ih =>
    intro hmem
    by_cases hxd : x = d
    · subst hxd
      refine ⟨rest, ?_⟩
      simp [List.dropWhile_cons]
    · have hd : d ∈ rest := by
        rcases List.mem_cons.mp hmem with h | h
        · exact absurd h.symm hxd
        · exact h
      obtain ⟨post, hpost⟩ := ih hd
      refine ⟨post, ?_⟩
      have : ((x != d) = true) := by simp [hxd]
      simp [List.dropWhile_cons, this, hpost]

theorem pchain_cycle (config : WorkspaceConfig) (par : String → Option String) :
    ∀ pre node post d, PChain config par (node :: (pre ++ d :: post)) →
      List.Chain' (Edge config) (d :: (pre.reverse ++ [node])) := by
  intro pre
  induction pre with
  | nil =>
    intro node post d h
    cases h with
    | cons _ _ _ hpar hedge hrest =>
      simp only [List.nil_append, List.reverse_nil]
      exact List.chain'_cons.mpr ⟨hedge, List.chain'_singleton node⟩
  | cons w pre2 ih =>
    intro node post d h
    cases h with
    | cons _ _ _ hpar hedge hrest =>
      have hchain := ih w post d hrest
      have hshape : d :: ((w :: pre2).reverse ++ [node]) =
          (d :: (pre2.reverse ++ [w])) ++ [node] := by
        simp
      rw [hshape]
      rw [List.chain'_append]
      refine ⟨hchain, List.chain'_singleton node, ?_⟩
      intro x hx y hy
      have hxw : x = w := by
        have : (d :: (pre2.reverse ++ [w])).getLast? = some w := by
          have : d :: (pre2.reverse ++ [w]) = (d :: pre2.reverse) ++ [w] := by
            simp
          rw [this, List.getLast?_concat]
        rw [this] at hx
        exact (Option.mem_some_iff.mp hx).symm
      have hyn : y = node := by
        simp only [List.head?_cons, Option.mem_some_iff] at hy
        exact hy.symm
      rw [hxw, hyn]
      exact hedge

theorem stack_length_le {config : WorkspaceConfig} {stk : List String}
    (hnd : stk.Nodup) (hsub : ∀ x ∈ stk, x ∈ serviceNames config) :
    stk.length ≤ (serviceNames config).length := by
  calc stk.length = stk.toFinset.card := (List.toFinset_card_of_nodup hnd).symm
    _ ≤ (serviceNames config).toFinset.card := by
        apply Finset.card_le_card
        intro x hx
        rw [List.mem_toFinset] at hx ⊢
        exact hsub x hx
    _ ≤ (serviceNames config).length := List.toFinset_card_le _

/-- A gray hit inside `dfsDeps` produces a message whose parts name an
actual dependency cycle. -/
theorem cycleMsg_good {config : WorkspaceConfig} {st : DfsState}
    {node d : String} {stk : List String}
    (hinv : DfsInv config st (node :: stk)) (hd : d ∈ node :: stk)
    (hedge : Edge config node d) :
    GoodCycleMsg config (cycleMsg config st d node) := by
  have hchain : PChain config st.parent (node :: stk) := by
    rcases hinv.chain with h | h
    · cases h
    · exact h
  have hlen : stk.length ≤ (serviceNames config).length + 1 := by
    have h1 : (node :: stk).length ≤ (serviceNames config).length :=
      stack_length_le hinv.nodup hinv.stkNames
    simp only [List.length_cons] at h1
    omega
  have hwalk := cycleWalk_spec config st d stk node [d, node]
    ((serviceNames config).length + 1) hchain hlen
  show GoodCycleMsg config ("Dependency cycle detected: " ++
    arrowJoin ((cycleWalk st d ((serviceNames config).length + 1)
      (st.parent node) [d, node]).reverse) ++ " → " ++ d)
  rw [hwalk]
  set pre := stk.takeWhile (fun x => x != d) with hpre
  have hrevne : ([d, node] ++ pre).reverse ≠ [] := by simp
  have hjoin : arrowJoin (([d, node] ++ pre).reverse ++ [d]) =
      arrowJoin (([d, node] ++ pre).reverse) ++ " → " ++ d :=
    arrowJoin_concat d hrevne
  refine ⟨([d, node] ++ pre).reverse ++ [d], ?_, ?_⟩
  · rw [hjoin]
    simp [String.append_assoc]
  rcases List.mem_cons.mp hd with rfl | hdstk
  · refine ⟨[d], ⟨by simp, ?_⟩, ?_⟩
    · simp only [List.headD_cons, List.cons_append, List.nil_append]
      exact List.chain'_cons.mpr ⟨hedge, List.chain'_singleton d⟩
    · intro x hx
      rcases List.mem_singleton.mp hx with rfl
      simp
  · obtain ⟨post, hpost⟩ := dropWhile_ne_head stk hdstk
    have hsplit : stk = pre ++ d :: post := by
      rw [hpre, ← hpost]
      exact (List.takeWhile_append_dropWhile _ _).symm
    have hcyc : List.Chain' (Edge config) (d :: (pre.reverse ++ [node])) := by
      apply pchain_cycle config st.parent pre node post d
      rw [← hsplit]
      exact hchain
    refine ⟨d :: (pre.reverse ++ [node]), ⟨by simp, ?_⟩, ?_⟩
    · simp only [List.headD_cons]
      have hshape : (d :: (pre.reverse ++ [node])) ++ [d] =
          d :: ((pre.reverse ++ [node]) ++ [d]) := by simp
      rw [hshape]
      have hshape2 : d :: ((pre.reverse ++ [node]) ++ [d]) =
          (d :: (pre.reverse ++ [node])) ++ [d] := by simp
      rw [hshape2, List.chain'_append]
      refine ⟨hcyc, List.chain'_singleton d, ?_⟩
      intro x hx y hy
      have hxn : x = node := by
        have : (d :: (pre.reverse ++ [node])).getLast? = some node := by
          have : d :: (pre.reverse ++ [node]) = (d :: pre.reverse) ++ [node] := by
            simp
          rw [this, List.getLast?_concat]
        rw [this] at hx
        exact (Option.mem_some_iff.mp hx).symm
      have hyd : y = d := by
        simp only [List.head?_cons, Option.mem_some_iff] at hy
        exact hy.symm
      rw [hxn, hyd]
      exact hedge
    · intro x hx
      rcases List.mem_cons.mp hx with rfl | hx2
      · exact List.mem_append.mpr (Or.inr (List.mem_singleton.mpr rfl))
      · rcases List.mem_append.mp hx2 with hx3 | hx3
        · have hxpre : x ∈ pre := List.mem_reverse.mp hx3
          apply List.mem_append.mpr
          left
          rw [List.mem_reverse]
          exact List.mem_append.mpr (Or.inr hxpre)
        · rcases List.mem_singleton.mp hx3 with rfl
          apply List.mem_append.mpr
          left
          rw [List.mem_reverse]
          exact List.mem_append.mpr (Or.inl (by simp))

theorem pchain_congr {config : WorkspaceConfig}
    {par par2 : String → Option String} :
    ∀ {l : List String}, PChain config par l →
      (∀ x ∈ l, par2 x = par x) → PChain config par2 l := by
  intro l h
  induction h with
  | single v hv =>
    intro hagree
    exact PChain.single v ((hagree v (by simp)).trans hv)
  | cons v w rest hv he hrest ih =>
    intro hagree
    refine PChain.cons v w rest ?_ he (ih ?_)
    · rw [hagree v (by simp), hv]
    · intro x hx
      exact hagree x (List.mem_cons_of_mem _ hx)

theorem whiteCount_setParent (config : WorkspaceConfig) (d p : String)
    (st : DfsState) :
    whiteCount config (setParent d p st) = whiteCount config st := rfl

theorem whiteCount_setColor_nonwhite {config : WorkspaceConfig} {st : DfsState}
    {node : String} {c : Nat} (h1 : st.color node ≠ WHITE) (h2 : c ≠ WHITE) :
    whiteCount config (setColor node c st) = whiteCount config st := by
  rw [whiteCount, whiteCount]
  congr 1
  apply List.filter_congr
  intro x _
  simp only [setColor]
  by_cases hx : x = node
  · subst hx
    simp [h1, h2]
  · simp [hx]

theorem whiteCount_pos {config : WorkspaceConfig} {st : DfsState}
    {node : String} (hmem : node ∈ serviceNames config)
    (hw : st.color node = WHITE) : 0 < whiteCount config st := by
  rw [whiteCount]
  have hmem2 : node ∈ (serviceNames config).filter
      (fun n => st.color n == WHITE) :=
    List.mem_filter.mpr ⟨hmem, by simp [hw]⟩
  exact List.length_pos.mpr (fun hnil => by rw [hnil] at hmem2; cases hmem2)

theorem dfsDeps_cons_gray {config : WorkspaceConfig} {visit} {node dep : String}
    {rest : List String} {st : DfsState} (h : st.color dep = GRAY) :
    dfsDeps config visit node (dep :: rest) st =
      Except.error (DagErr.msg (cycleMsg config st dep node)) := by
  rw [dfsDeps]
  exact if_pos h

theorem dfsDeps_cons_white {config : WorkspaceConfig} {visit}
    {node dep : String} {rest : List String} {st : DfsState}
    (hg : st.color dep ≠ GRAY) (hw : st.color dep = WHITE) :
    dfsDeps config visit node (dep :: rest) st =
      match visit dep (setParent dep node st) with
      | Except.error e => Except.error e
      | Except.ok st2 => dfsDeps config visit node rest st2 := by
  rw [dfsDeps, if_neg hg, if_pos hw]

theorem dfsDeps_cons_other {config : WorkspaceConfig} {visit}
    {node dep : String} {rest : List String} {st : DfsState}
    (hg : st.color dep ≠ GRAY) (hw : st.color dep ≠ WHITE) :
    dfsDeps config visit node (dep :: rest) st =
      dfsDeps config visit node rest st := by
  rw [dfsDeps, if_neg hg, if_neg hw]

theorem dfsVisit_succ (config : WorkspaceConfig) (fuel : Nat) (node : String)
    (st : DfsState) :
    dfsVisit config (fuel + 1) node st =
      match dfsDeps config (dfsVisit config fuel) node
          (depsOfService config node) (setColor node GRAY st) with
      | Except.error e => Except.error e
      | Except.ok st2 => Except.ok (setColor node BLACK st2) := rfl

/-- No black node reaches a gray node. -/
def BlackGray (config : WorkspaceConfig) (st : DfsState) : Prop :=
  ∀ x, st.color x = BLACK → ∀ y, Relation.ReflTransGen (Edge config) x y →
    st.color y ≠ GRAY

/-- No black node lies on a dependency cycle. -/
def BlackAcy (config : WorkspaceConfig) (st : DfsState) : Prop :=
  ∀ x, st.color x = BLACK → ¬ Relation.TransGen (Edge config) x x

theorem black_reach (config : WorkspaceConfig) (st : DfsState)
    (hbc : ∀ x, st.color x = BLACK →
      ∀ d ∈ depsOfService config x, st.color d = BLACK)
    {x y : String} (hx : st.color x = BLACK)
    (hr : Relation.ReflTransGen (Edge config) x y) : st.color y = BLACK := by
  induction hr with
  | refl => exact hx
  | tail hab hedge ihy => exact hbc _ ihy _ hedge

/-- Master specification of the three-colour DFS visit: under the stack
invariant, visiting a white node either succeeds — restoring the stack,
blackening the node, changing only white nodes to black — or fails with
a message naming a real dependency cycle. -/
theorem dfsVisit_master (config : WorkspaceConfig) (hrefs : ValidRefs config) :
    ∀ fuel node st stk,
    DfsInv config st stk → st.color node = WHITE →
    node ∈ serviceNames config → plinkOk config st node stk →
    (∀ x, x ≠ node → st.color x = WHITE → st.parent x = none) →
    BlackGray config st → BlackAcy config st →
    whiteCount config st ≤ fuel →
    (∃ st2, dfsVisit config fuel node st = Except.ok st2 ∧
      DfsInv config st2 stk ∧ st2.color node = BLACK ∧ DfsPost st st2 ∧
      WhiteParent st2 ∧ BlackGray config st2 ∧ BlackAcy config st2 ∧
      whiteCount config st2 < whiteCount config st) ∨
    (∃ m, dfsVisit config fuel node st = Except.error (DagErr.msg m) ∧
      GoodCycleMsg config m) := by
  intro fuel
  induction fuel with
  | zero =>
    intro node st stk _ hwhite hmem _ _ _ _ hwc
    exact absurd hwc (by have := whiteCount_pos hmem hwhite; omega)
  | succ fuel ih =>
    intro node st stk hinv hwhite hmem hplink hwp hbg hba hwc
    set st1 := setColor node GRAY st with hst1
    have hc1 : ∀ x, st1.color x = if x = node then GRAY else st.color x :=
      fun _ => rfl
    have hnodeNotStk : node ∉ stk := by
      intro hin
      have hg := (hinv.grayIff node).mpr hin
      rw [hwhite] at hg
      exact absurd hg.symm gray_ne_white
    have hinv1 : DfsInv config st1 (node :: stk) := by
      refine ⟨?_, ?_, ?_, ?_, ?_, ?_⟩
      · intro x
        constructor
        · intro hx
          by_cases hxn : x = node
          · exact hxn ▸ List.mem_cons_self _ _
          · rw [hc1 x, if_neg hxn] at hx
            exact List.mem_cons_of_mem _ ((hinv.grayIff x).mp hx)
        · intro hx
          rcases List.mem_cons.mp hx with rfl | hx2
          · rw [hc1 x, if_pos rfl]
          · by_cases hxn : x = node
            · subst hxn
              exact absurd hx2 hnodeNotStk
            · rw [hc1 x, if_neg hxn]
              exact (hinv.grayIff x).mpr hx2
      · exact List.nodup_cons.mpr ⟨hnodeNotStk, hinv.nodup⟩
      · right
        cases hstk : stk with
        | nil =>
          have hpn : st.parent node = none := by
            rw [hstk] at hplink
            exact hplink
          exact PChain.single node hpn
        | cons h t =>
          have hpl := hplink
          rw [hstk] at hpl
          obtain ⟨hpar, hedge⟩ := hpl
          have hch : PChain config st.parent (h :: t) := by
            rcases hinv.chain with hnil | hch
            · rw [hstk] at hnil
              cases hnil
            · rw [hstk] at hch
              exact hch
          exact PChain.cons node h t hpar hedge hch
      · intro x hx d hd
        by_cases hxn : x = node
        · subst hxn
          rw [hc1 x, if_pos rfl] at hx
          exact absurd hx gray_ne_black
        · rw [hc1 x, if_neg hxn] at hx
          have hdb := hinv.blackClosed x hx d hd
          by_cases hdn : d = node
          · subst hdn
            rw [hwhite] at hdb
            exact absurd hdb (by decide)
          · rw [hc1 d, if_neg hdn]
            exact hdb
      · intro x
        by_cases hxn : x = node
        · rw [hc1 x, if_pos hxn]
          exact Or.inr (Or.inl rfl)
        · rw [hc1 x, if_neg hxn]
          exact hinv.colorRange x
      · intro x hx
        rcases List.mem_cons.mp hx with rfl | hx2
        · exact hmem
        · exact hinv.stkNames x hx2
    have hwp1 : WhiteParent st1 := by
      intro x hx
      by_cases hxn : x = node
      · subst hxn
        rw [hc1 x, if_pos rfl] at hx
        exact absurd hx gray_ne_white
      · rw [hc1 x, if_neg hxn] at hx
        exact hwp x hxn hx
    have hwc1 : whiteCount config st1 < whiteCount config st :=
      whiteCount_lt_of_gray hmem hwhite
    have hbg1 : BlackGray config st1 := by
      intro x hx y hr
      have hxn : x ≠ node := by
        intro he
        rw [hc1 x, if_pos he] at hx
        exact absurd hx gray_ne_black
      rw [hc1 x, if_neg hxn] at hx
      have hyB : st.color y = BLACK :=
        black_reach config st hinv.blackClosed hx hr
      intro hyG
      by_cases hyn : y = node
      · subst hyn
        rw [hyB] at hwhite
        exact absurd hwhite (by decide)
      · rw [hc1 y, if_neg hyn] at hyG
        rw [hyB] at hyG
        exact absurd hyG (by decide)
    have hba1 : BlackAcy config st1 := by
      intro x hx
      have hxn : x ≠ node := by
        intro he
        rw [hc1 x, if_pos he] at hx
        exact absurd hx gray_ne_black
      rw [hc1 x, if_neg hxn] at hx
      exact hba x hx
    have inner : ∀ ds stcur, (∀ d ∈ ds, d ∈ depsOfService config node) →
        DfsInv config stcur (node :: stk) → WhiteParent stcur →
        BlackGray config stcur → BlackAcy config stcur →
        whiteCount config stcur ≤ fuel →
        (∃ stf, dfsDeps config (dfsVisit config fuel) node ds stcur =
            Except.ok stf ∧
          DfsInv config stf (node :: stk) ∧ DfsPost stcur stf ∧
          WhiteParent stf ∧ BlackGray config stf ∧ BlackAcy config stf ∧
          (∀ d ∈ ds, stf.color d = BLACK) ∧
          whiteCount config stf ≤ whiteCount config stcur) ∨
        (∃ m, dfsDeps config (dfsVisit config fuel) node ds stcur =
            Except.error (DagErr.msg m) ∧ GoodCycleMsg config m) := by
      intro ds
      induction ds with
      | nil =>
        intro stcur _ hinvc hwpc hbgc hbac _
        left
        exact ⟨stcur, rfl, hinvc, dfsPost_refl stcur, hwpc, hbgc, hbac,
          fun d hd => absurd hd (by simp), le_refl _⟩
      | cons dep rest ihd =>
        intro stcur hds hinvc hwpc hbgc hbac hwcc
        have hdep : dep ∈ depsOfService config node := hds dep (by simp)
        have hedge : Edge config node dep := hdep
        by_cases hg : stcur.color dep = GRAY
        · right
          exact ⟨cycleMsg config stcur dep node, dfsDeps_cons_gray hg,
            cycleMsg_good hinvc ((hinvc.grayIff dep).mp hg) hedge⟩
        · by_cases hw2 : stcur.color dep = WHITE
          · set stp := setParent dep node stcur with hstp
            have hdepNotStk : dep ∉ node :: stk := by
              intro hin
              have hgd := (hinvc.grayIff dep).mpr hin
              rw [hw2] at hgd
              exact absurd hgd.symm gray_ne_white
            have hinvp : DfsInv config stp (node :: stk) := by
              refine ⟨fun x => hinvc.grayIff x, hinvc.nodup, ?_,
                fun x hx => hinvc.blackClosed x hx,
                fun x => hinvc.colorRange x, hinvc.stkNames⟩
              rcases hinvc.chain with hnil | hch
              · exact Or.inl hnil
              · right
                apply pchain_congr hch
                intro x hx
                have hxne : x ≠ dep := by
                  intro hxe
                  subst hxe
                  exact hdepNotStk hx
                show stp.parent x = stcur.parent x
                rw [hstp]
                simp [setParent, hxne]
            have hplinkp : plinkOk config stp dep (node :: stk) := by
              refine ⟨?_, hedge⟩
              show stp.parent dep = some node
              rw [hstp]
              simp [setParent]
            have hwpp : ∀ x, x ≠ dep → stp.color x = WHITE →
                stp.parent x = none := by
              intro x hxd hx
              have : stp.parent x = stcur.parent x := by
                rw [hstp]
                simp [setParent, hxd]
              rw [this]
              exact hwpc x hx
            have hmemdep : dep ∈ serviceNames config :=
              depsOf_subset_names hrefs node dep hdep
            have hwcp : whiteCount config stp ≤ fuel := hwcc
            have hbgp : BlackGray config stp := hbgc
            have hbap : BlackAcy config stp := hbac
            rcases ih dep stp (node :: stk) hinvp hw2 hmemdep hplinkp
                hwpp hbgp hbap hwcp with
              ⟨st2, heq2, hinv2, hblack2, hpost2, hwp2, hbg2, hba2, hwc2⟩ |
                ⟨m, heqe, hgood⟩
            · have hstepEq : dfsDeps config (dfsVisit config fuel) node
                  (dep :: rest) stcur =
                  dfsDeps config (dfsVisit config fuel) node rest st2 := by
                rw [dfsDeps_cons_white hg hw2, heq2]
              have hpostc2 : DfsPost stcur st2 := by
                obtain ⟨p1, p2, p3⟩ := hpost2
                refine ⟨fun x hx => p1 x hx, fun x hx => p2 x hx, ?_⟩
                intro x hx
                by_cases hxd : x = dep
                · subst hxd
                  exact ⟨hblack2, hw2⟩
                · have hxp : st2.parent x ≠ stp.parent x := by
                    intro he
                    apply hx
                    rw [he, hstp]
                    simp [setParent, hxd]
                  exact p3 x hxp
              have hwcc2 : whiteCount config st2 ≤ whiteCount config stcur :=
                le_of_lt hwc2
              rcases ihd st2 (fun d hd => hds d (List.mem_cons_of_mem _ hd))
                  hinv2 hwp2 hbg2 hba2 (le_trans hwcc2 hwcc) with
                ⟨stf, heqf, hinvf, hpostf, hwpf, hbgf, hbaf, hblacks, hwcf⟩ |
                  ⟨m, heqe2, hgood2⟩
              · left
                refine ⟨stf, by rw [hstepEq, heqf], hinvf,
                  dfsPost_trans hpostc2 hpostf, hwpf, hbgf, hbaf, ?_,
                  le_trans hwcf hwcc2⟩
                intro d hd
                rcases List.mem_cons.mp hd with rfl | hd2
                · rw [hpostf.1 d (by rw [hblack2]; exact black_ne_white)]
                  exact hblack2
                · exact hblacks d hd2
              · right
                exact ⟨m, by rw [hstepEq, heqe2], hgood2⟩
            · right
              refine ⟨m, ?_, hgood⟩
              rw [dfsDeps_cons_white hg hw2, heqe]
          · have hb : stcur.color dep = BLACK := by
              rcases hinvc.colorRange dep with h | h | h
              · exact absurd h hw2
              · exact absurd h hg
              · exact h
            have hstepEq : dfsDeps config (dfsVisit config fuel) node
                (dep :: rest) stcur =
                dfsDeps config (dfsVisit config fuel) node rest stcur :=
              dfsDeps_cons_other hg hw2
            rcases ihd stcur (fun d hd => hds d (List.mem_cons_of_mem _ hd))
                hinvc hwpc hbgc hbac hwcc with
              ⟨stf, heqf, hinvf, hpostf, hwpf, hbgf, hbaf, hblacks, hwcf⟩ |
                ⟨m, heqe2, hgood2⟩
            · left
              refine ⟨stf, by rw [hstepEq, heqf], hinvf, hpostf, hwpf,
                hbgf, hbaf, ?_, hwcf⟩
              intro d hd
              rcases List.mem_cons.mp hd with rfl | hd2
              · rw [hpostf.1 d (by rw [hb]; exact black_ne_white)]
                exact hb
              · exact hblacks d hd2
            · right
              exact ⟨m, by rw [hstepEq, heqe2], hgood2⟩
    have hwc1le : whiteCount config st1 ≤ fuel := by omega
    rcases inner (depsOfService config node) st1 (fun d hd => hd)
        hinv1 hwp1 hbg1 hba1 hwc1le with
      ⟨stf, heqf, hinvf, hpostf, hwpf, hbgf, hbaf, hblacks, hwcf⟩ |
        ⟨m, heqe, hgood⟩
    · left
      set st3 := setColor node BLACK stf with hst3
      have hc3 : ∀ x, st3.color x = if x = node then BLACK else stf.color x :=
        fun _ => rfl
      have hp3 : st3.parent = stf.parent := rfl
      have hnodeGrayF : stf.color node = GRAY :=
        (hinvf.grayIff node).mpr (List.mem_cons_self _ _)
      have heqTop : dfsVisit config (fuel + 1) node st = Except.ok st3 := by
        rw [dfsVisit_succ, heqf]
      have hpostTop : DfsPost st st3 := by
        obtain ⟨p1, p2, p3⟩ := hpostf
        refine ⟨?_, ?_, ?_⟩
        · intro x hx
          have hxn : x ≠ node := by
            intro he
            subst he
            exact hx hwhite
          rw [hc3 x, if_neg hxn]
          have h1 : st1.color x ≠ WHITE := by
            rw [hc1 x, if_neg hxn]
            exact hx
          rw [p1 x h1, hc1 x, if_neg hxn]
        · intro x hx
          by_cases hxn : x = node
          · subst hxn
            rw [hc3 x, if_pos rfl]
            exact ⟨hwhite, rfl⟩
          · rw [hc3 x, if_neg hxn] at hx ⊢
            by_cases hfx : stf.color x = st1.color x
            · exfalso
              apply hx
              rw [hfx, hc1 x, if_neg hxn]
            · obtain ⟨hw1, hb1⟩ := p2 x hfx
              rw [hc1 x, if_neg hxn] at hw1
              exact ⟨hw1, hb1⟩
        · intro x hx
          rw [hp3] at hx
          have hx1 : stf.parent x ≠ st1.parent x := hx
          obtain ⟨hbf, hwf1⟩ := p3 x hx1
          constructor
          · rw [hc3 x]
            by_cases hxn : x = node
            · rw [if_pos hxn]
            · rw [if_neg hxn]
              exact hbf
          · have hxn : x ≠ node := by
              intro he
              subst he
              rw [hc1 x, if_pos rfl] at hwf1
              exact absurd hwf1 gray_ne_white
            rw [hc1 x, if_neg hxn] at hwf1
            exact hwf1
      have hinv3 : DfsInv config st3 stk := by
        refine ⟨?_, hinv.nodup, ?_, ?_, ?_, ?_⟩
        · intro x
          constructor
          · intro hx
            by_cases hxn : x = node
            · subst hxn
              rw [hc3 x, if_pos rfl] at hx
              exact absurd hx.symm gray_ne_black
            · rw [hc3 x, if_neg hxn] at hx
              have := (hinvf.grayIff x).mp hx
              rcases List.mem_cons.mp this with rfl | h2
              · exact absurd rfl hxn
              · exact h2
          · intro hx
            have hxn : x ≠ node := by
              intro he
              subst he
              exact hnodeNotStk hx
            rw [hc3 x, if_neg hxn]
            exact (hinvf.grayIff x).mpr (List.mem_cons_of_mem _ hx)
        · cases hstk : stk with
          | nil => exact Or.inl rfl
          | cons h t =>
            right
            rcases hinvf.chain with hnil | hch
            · cases hnil
            · rw [hstk] at hch
              cases hch with
              | cons _ _ _ hpar hedge hrest =>
                rw [hp3]
                exact hrest
        · intro x hx d hd
          by_cases hxn : x = node
          · have hdB : stf.color d = BLACK := hblacks d (hxn ▸ hd)
            rw [hc3 d]
            by_cases hdn : d = node
            · rw [if_pos hdn]
            · rw [if_neg hdn]
              exact hdB
          · rw [hc3 x, if_neg hxn] at hx
            have hdB := hinvf.blackClosed x hx d hd
            rw [hc3 d]
            by_cases hdn : d = node
            · rw [if_pos hdn]
            · rw [if_neg hdn]
              exact hdB
        · intro x
          by_cases hxn : x = node
          · rw [hc3 x, if_pos hxn]
            exact Or.inr (Or.inr rfl)
          · rw [hc3 x, if_neg hxn]
            exact hinvf.colorRange x
        · exact hinv.stkNames
      have hwp3 : WhiteParent st3 := by
        intro x hx
        have hxn : x ≠ node := by
          intro he
          subst he
          rw [hc3 x, if_pos rfl] at hx
          exact absurd hx black_ne_white
        rw [hc3 x, if_neg hxn] at hx
        rw [hp3]
        exact hwpf x hx
      have hwc3 : whiteCount config st3 < whiteCount config st := by
        have heqwc : whiteCount config st3 = whiteCount config stf :=
          whiteCount_setColor_nonwhite
            (by rw [hnodeGrayF]; exact gray_ne_white) black_ne_white
        omega
      have hbg3 : BlackGray config st3 := by
        intro x hx y hr hyG
        have hyn : y ≠ node := by
          intro he
          rw [hc3 y, if_pos he] at hyG
          exact absurd hyG (by decide)
        rw [hc3 y, if_neg hyn] at hyG
        by_cases hxn : x = node
        · subst hxn
          rcases Relation.ReflTransGen.cases_head hr with heq | ⟨d, hedge, hr2⟩
          · exact hyn heq.symm
          · have hdB : stf.color d = BLACK := hblacks d hedge
            have hyB : stf.color y = BLACK :=
              black_reach config stf hinvf.blackClosed hdB hr2
            rw [hyB] at hyG
            exact absurd hyG (by decide)
        · rw [hc3 x, if_neg hxn] at hx
          exact hbgf x hx y hr hyG
      have hba3 : BlackAcy config st3 := by
        intro x hx hT
        by_cases hxn : x = node
        · subst hxn
          rcases (Relation.TransGen.head'_iff).mp hT with ⟨d, hedge, hr⟩
          have hdB : stf.color d = BLACK := hblacks d hedge
          have hnB : stf.color x = BLACK :=
            black_reach config stf hinvf.blackClosed hdB hr
          rw [hnodeGrayF] at hnB
          exact absurd hnB (by decide)
        · rw [hc3 x, if_neg hxn] at hx
          exact hbaf x hx hT
      exact ⟨st3, heqTop, hinv3, by rw [hc3 node, if_pos rfl], hpostTop,
        hwp3, hbg3, hba3, hwc3⟩
    · right
      refine ⟨m, ?_, hgood⟩
      rw [dfsVisit_succ, heqe]

theorem initBlackGray (config : WorkspaceConfig) :
    BlackGray config initDfsState := by
  intro x hx
  have hcontra : WHITE = BLACK := hx
  exact absurd hcontra (by decide)

theorem initBlackAcy (config : WorkspaceConfig) :
    BlackAcy config initDfsState := by
  intro x hx
  have hcontra : WHITE = BLACK := hx
  exact absurd hcontra (by decide)

theorem edge_source_mem (config : WorkspaceConfig) {x y : String}
    (h : Edge config x y) : x ∈ serviceNames config := by
  unfold Edge depsOfService at h
  cases hf : findService config x with
  | none =>
    rw [hf] at h
    simp at h
  | some p =>
    unfold findService at hf
    have hpm : p ∈ config.services := List.mem_of_find?_eq_some hf
    have hpx : p.1 = x := by
      have hb := List.find?_some hf
      exact eq_of_beq hb
    rw [← hpx]
    exact List.mem_map_of_mem Prod.fst hpm

theorem transGen_of_chain (r : String → String → Prop) :
    ∀ (xs : List String) (a b : String),
      List.Chain' r (a :: (xs ++ [b])) → Relation.TransGen r a b := by
  intro xs
  induction xs with
  | nil =>
    intro a b h
    rw [List.nil_append, List.chain'_cons] at h
    exact Relation.TransGen.single h.1
  | cons x xs2 ihx =>
    intro a b h
    rw [List.cons_append, List.chain'_cons] at h
    exact Relation.TransGen.head h.1 (ihx x b h.2)

theorem hasCycle_of_isCycleList (config : WorkspaceConfig) (l : List String)
    (h : IsCycleList config l) : HasCycle config := by
  obtain ⟨hne, hch⟩ := h
  cases l with
  | nil => exact absurd rfl hne
  | cons a t => exact ⟨a, transGen_of_chain (Edge config) t a a hch⟩

theorem detectLoop_cons_white (config : WorkspaceConfig) (fuel : Nat)
    (name : String) (rest : List String) (st : DfsState)
    (h : st.color name = WHITE) :
    detectLoop config fuel (name :: rest) st =
      match dfsVisit config fuel name st with
      | Except.error e => Except.error e
      | Except.ok st2 => detectLoop config fuel rest st2 := by
  rw [detectLoop]
  exact if_pos h

theorem detectLoop_cons_other (config : WorkspaceConfig) (fuel : Nat)
    (name : String) (rest : List String) (st : DfsState)
    (h : st.color name ≠ WHITE) :
    detectLoop config fuel (name :: rest) st =
      detectLoop config fuel rest st := by
  rw [detectLoop]
  exact if_neg h

/-- The root loop of cycle detection: starting from the empty stack it
either blackens every root and preserves all invariants, or surfaces a
correct cycle diagnostic. -/
theorem detectLoop_master (config : WorkspaceConfig) (hrefs : ValidRefs config)
    (fuel : Nat) :
    ∀ roots st, (∀ r ∈ roots, r ∈ serviceNames config) →
    DfsInv config st [] → WhiteParent st →
    BlackGray config st → BlackAcy config st →
    whiteCount config st ≤ fuel →
    (∃ st2, detectLoop config fuel roots st = Except.ok st2 ∧
      DfsInv config st2 [] ∧ WhiteParent st2 ∧ BlackGray config st2 ∧
      BlackAcy config st2 ∧ DfsPost st st2 ∧
      (∀ r ∈ roots, st2.color r = BLACK) ∧
      whiteCount config st2 ≤ whiteCount config st) ∨
    (∃ m, detectLoop config fuel roots st = Except.error (DagErr.msg m) ∧
      GoodCycleMsg config m) := by
  intro roots
  induction roots with
  | nil =>
    intro st _ hinv hwp hbg hba _
    left
    exact ⟨st, rfl, hinv, hwp, hbg, hba, dfsPost_refl st,
      fun r hr => absurd hr (by simp), le_refl _⟩
  | cons name rest ihr =>
    intro st hroots hinv hwp hbg hba hwc
    by_cases hwn : st.color name = WHITE
    · have hplink : plinkOk config st name [] := hwp name hwn
      have hmem : name ∈ serviceNames config := hroots name (by simp)
      have hwpX : ∀ x, x ≠ name → st.color x = WHITE → st.parent x = none :=
        fun x _ hx => hwp x hx
      rcases dfsVisit_master config hrefs fuel name st [] hinv hwn hmem
          hplink hwpX hbg hba hwc with
        ⟨st2, heq2, hinv2, hblack2, hpost2, hwp2, hbg2, hba2, hwc2⟩ |
          ⟨m, heqe, hgood⟩
      · have hstepEq : detectLoop config fuel (name :: rest) st =
            detectLoop config fuel rest st2 := by
          rw [detectLoop_cons_white config fuel name rest st hwn, heq2]
        rcases ihr st2 (fun r hr => hroots r (List.mem_cons_of_mem _ hr))
            hinv2 hwp2 hbg2 hba2 (le_trans (le_of_lt hwc2) hwc) with
          ⟨stf, heqf, hinvf, hwpf, hbgf, hbaf, hpostf, hblacks, hwcf⟩ |
            ⟨m, heqe2, hgood2⟩
        · left
          refine ⟨stf, by rw [hstepEq, heqf], hinvf, hwpf, hbgf, hbaf,
            dfsPost_trans hpost2 hpostf, ?_,
            le_trans hwcf (le_of_lt hwc2)⟩
          intro r hr
          rcases List.mem_cons.mp hr with rfl | hr2
          · rw [hpostf.1 r (by rw [hblack2]; exact black_ne_white)]
            exact hblack2
          · exact hblacks r hr2
        · right
          exact ⟨m, by rw [hstepEq, heqe2], hgood2⟩
      · right
        refine ⟨m, ?_, hgood⟩
        rw [detectLoop_cons_white config fuel name rest st hwn, heqe]
    · have hbn : st.color name = BLACK := by
        rcases hinv.colorRange name with h | h | h
        · exact absurd h hwn
        · exact absurd ((hinv.grayIff name).mp h) (by simp)
        · exact h
      have hstepEq : detectLoop config fuel (name :: rest) st =
          detectLoop config fuel rest st :=
        detectLoop_cons_other config fuel name rest st hwn
      rcases ihr st (fun r hr => hroots r (List.mem_cons_of_mem _ hr))
          hinv hwp hbg hba hwc with
        ⟨stf, heqf, hinvf, hwpf, hbgf, hbaf, hpostf, hblacks, hwcf⟩ |
          ⟨m, heqe2, hgood2⟩
      · left
        refine ⟨stf, by rw [hstepEq, heqf], hinvf, hwpf, hbgf, hbaf,
          hpostf, ?_, hwcf⟩
        intro r hr
        rcases List.mem_cons.mp hr with rfl | hr2
        · rw [hpostf.1 r (by rw [hbn]; exact black_ne_white)]
          exact hbn
        · exact hblacks r hr2
      · right
        exact ⟨m, by rw [hstepEq, heqe2], hgood2⟩

/-- A full run of detectCycles: on an acyclic graph it succeeds; on a
cyclic graph it fails with a correct cycle diagnostic. -/
theorem detectCycles_run (config : WorkspaceConfig) (hrefs : ValidRefs config) :
    (¬ HasCycle config ∧ detectCycles config = Except.ok ()) ∨
    (HasCycle config ∧ ∃ m, detectCycles config = Except.error (DagErr.msg m) ∧
      GoodCycleMsg config m) := by
  have hwc : whiteCount config initDfsState ≤
      (serviceNames config).length + 1 := by
    have := whiteCount_le_names config initDfsState
    omega
  rcases detectLoop_master config hrefs ((serviceNames config).length + 1)
      (serviceNames config) initDfsState (fun r hr => hr) (initDfsInv config)
      initWhiteParent (initBlackGray config) (initBlackAcy config) hwc with
    ⟨st2, heq, _, _, _, hba2, _, hblacks, _⟩ | ⟨m, heq, hgood⟩
  · left
    constructor
    · rintro ⟨v, hT⟩
      have hvmem : v ∈ serviceNames config := by
        rcases (Relation.TransGen.head'_iff).mp hT with ⟨d, hedge, _⟩
        exact edge_source_mem config hedge
      exact hba2 v (hblacks v hvmem) hT
    · unfold detectCycles
      rw [heq]
  · right
    constructor
    · obtain ⟨parts, hm, c, hc, hsub⟩ := hgood
      exact hasCycle_of_isCycleList config c hc
    · exact ⟨m, by unfold detectCycles; rw [heq], hgood⟩

/-! ### Insertion sort facts -/

theorem charListLe_total : ∀ a b : List Char,
    charListLe a b = true ∨ charListLe b a = true := by
  intro a
  induction a with
  | nil =>
    intro b
    left
    rfl
  | cons x xs ihx =>
    intro b
    cases b with
    | nil =>
      right
      rfl
    | cons y ys =>
      by_cases hxy : x.toNat < y.toNat
      · left
        rw [charListLe, if_pos hxy]
      · by_cases hyx : y.toNat < x.toNat
        · right
          rw [charListLe, if_pos hyx]
        · rcases ihx ys with h | h
          · left
            rw [charListLe, if_neg hxy, if_neg hyx]
            exact h
          · right
            rw [charListLe, if_neg hyx, if_neg hxy]
            exact h

theorem charListLe_trans : ∀ a b c : List Char,
    charListLe a b = true → charListLe b c = true →
    charListLe a c = true := by
  intro a
  induction a with
  | nil =>
    intro b c _ _
    rfl
  | cons x xs ihx =>
    intro b c hab hbc
    cases b with
    | nil =>
      rw [charListLe] at hab
      cases hab
    | cons y ys =>
      cases c with
      | nil =>
        rw [charListLe] at hbc
        cases hbc
      | cons z zs =>
        rw [charListLe] at hab hbc ⊢
        by_cases hxy : x.toNat < y.toNat
        · by_cases hyz : y.toNat < z.toNat
          · rw [if_pos (lt_trans hxy hyz)]
          · by_cases hzy : z.toNat < y.toNat
            · rw [if_neg hyz, if_pos hzy] at hbc
              cases hbc
            · rw [if_pos (by omega : x.toNat < z.toNat)]
        · by_cases hyx : y.toNat < x.toNat
          · rw [if_neg hxy, if_pos hyx] at hab
            cases hab
          · rw [if_neg hxy, if_neg hyx] at hab
            by_cases hyz : y.toNat < z.toNat
            · rw [if_pos (by omega : x.toNat < z.toNat)]
            · by_cases hzy : z.toNat < y.toNat
              · rw [if_neg hyz, if_pos hzy] at hbc
                cases hbc
              · rw [if_neg hyz, if_neg hzy] at hbc
                rw [if_neg (by omega : ¬ x.toNat < z.toNat),
                  if_neg (by omega : ¬ z.toNat < x.toNat)]
                exact ihx ys zs hab hbc

theorem strLe_total (a b : String) :
    strLe a b = true ∨ strLe b a = true :=
  charListLe_total a.data b.data

theorem strLe_trans {a b c : String} (h1 : strLe a b = true)
    (h2 : strLe b c = true) : strLe a c = true :=
  charListLe_trans a.data b.data c.data h1 h2

theorem insertSorted_perm (x : String) : ∀ l : List String,
    List.Perm (insertSorted x l) (x :: l) := by
  intro l
  induction l with
  | nil => exact List.Perm.refl _
  | cons y ys ihy =>
    rw [insertSorted]
    by_cases h : strLe x y = true
    · rw [if_pos h]
    · rw [if_neg h]
      exact (List.Perm.cons y ihy).trans (List.Perm.swap x y ys)

theorem mem_insertSorted (a x : String) (l : List String) :
    a ∈ insertSorted x l ↔ a = x ∨ a ∈ l := by
  rw [(insertSorted_perm x l).mem_iff]
  exact List.mem_cons

theorem insertSorted_pairwise (x : String) : ∀ l : List String,
    l.Pairwise (fun a b => strLe a b = true) →
    (insertSorted x l).Pairwise (fun a b => strLe a b = true) := by
  intro l
  induction l with
  | nil =>
    intro _
    simp [insertSorted]
  | cons y ys ihy =>
    intro h
    rw [List.pairwise_cons] at h
    obtain ⟨hy, hys⟩ := h
    rw [insertSorted]
    by_cases hxy : strLe x y = true
    · rw [if_pos hxy]
      rw [List.pairwise_cons]
      constructor
      · intro b hb
        rcases List.mem_cons.mp hb with rfl | hb2
        · exact hxy
        · exact strLe_trans hxy (hy b hb2)
      · rw [List.pairwise_cons]
        exact ⟨hy, hys⟩
    · rw [if_neg hxy]
      rw [List.pairwise_cons]
      constructor
      · intro b hb
        rcases (mem_insertSorted b x ys).mp hb with rfl | hb2
        · rcases strLe_total b y with h2 | h2
          · exact absurd h2 hxy
          · exact h2
        · exact hy b hb2
      · exact ihy hys

theorem sortNames_perm : ∀ l : List String, List.Perm (sortNames l) l := by
  intro l
  induction l with
  | nil => exact List.Perm.refl _
  | cons x xs ihx =>
    have hstep : sortNames (x :: xs) = insertSorted x (sortNames xs) := rfl
    rw [hstep]
    exact (insertSorted_perm x (sortNames xs)).trans (List.Perm.cons x ihx)

theorem mem_sortNames (a : String) (l : List String) :
    a ∈ sortNames l ↔ a ∈ l :=
  (sortNames_perm l).mem_iff

theorem nodup_sortNames {l : List String} (h : l.Nodup) :
    (sortNames l).Nodup :=
  ((sortNames_perm l).nodup_iff).mpr h

theorem sortNames_pairwise : ∀ l : List String,
    (sortNames l).Pairwise (fun a b => strLe a b = true) := by
  intro l
  induction l with
  | nil => exact List.Pairwise.nil
  | cons x xs ihx =>
    have hstep : sortNames (x :: xs) = insertSorted x (sortNames xs) := rfl
    rw [hstep]
    exact insertSorted_pairwise x (sortNames xs) ihx

/-! ### List index and counting helpers -/

theorem getD_of_ge (dflt : List String) : ∀ (l : List (List String)) (j : Nat),
    l.length ≤ j → l.getD j dflt = dflt := by
  intro l
  induction l with
  | nil =>
    intro j _
    cases j <;> rfl
  | cons a l ihl =>
    intro j hj
    cases j with
    | zero =>
      rw [List.length_cons] at hj
      omega
    | succ j2 =>
      rw [List.getD_cons_succ]
      exact ihl j2 (by rw [List.length_cons] at hj; omega)

theorem getD_append_lt (dflt : List String) :
    ∀ (l l' : List (List String)) (j : Nat), j < l.length →
      (l ++ l').getD j dflt = l.getD j dflt := by
  intro l
  induction l with
  | nil =>
    intro l' j hj
    exact absurd hj (Nat.not_lt_zero j)
  | cons a l ihl =>
    intro l' j hj
    cases j with
    | zero => rfl
    | succ j2 =>
      rw [List.cons_append, List.getD_cons_succ, List.getD_cons_succ]
      exact ihl l' j2 (by rw [List.length_cons] at hj; omega)

theorem getD_append_len (dflt : List String) :
    ∀ (l l' : List (List String)),
      (l ++ l').getD l.length dflt = l'.getD 0 dflt := by
  intro l
  induction l with
  | nil =>
    intro l'
    rfl
  | cons a l ihl =>
    intro l'
    rw [List.cons_append, List.length_cons, List.getD_cons_succ]
    exact ihl l'

theorem mem_flatten_getD (x : String) : ∀ L : List (List String),
    x ∈ L.flatten ↔ ∃ i, i < L.length ∧ x ∈ L.getD i [] := by
  intro L
  induction L with
  | nil => simp
  | cons l L ihL =>
    rw [List.flatten_cons]
    constructor
    · intro h
      rcases List.mem_append.mp h with h1 | h2
      · exact ⟨0, by simp, h1⟩
      · rcases ihL.mp h2 with ⟨i, hi, hmem⟩
        refine ⟨i + 1, by simp [hi], ?_⟩
        rw [List.getD_cons_succ]
        exact hmem
    · rintro ⟨i, hi, hmem⟩
      cases i with
      | zero => exact List.mem_append.mpr (Or.inl hmem)
      | succ i2 =>
        rw [List.getD_cons_succ] at hmem
        refine List.mem_append.mpr (Or.inr (ihL.mpr ⟨i2, ?_, hmem⟩))
        rw [List.length_cons] at hi
        omega

theorem countP_split (p q : String → Bool) : ∀ l : List String,
    l.countP p =
      l.countP (fun a => p a && q a) + l.countP (fun a => p a && !q a) := by
  intro l
  induction l with
  | nil => rfl
  | cons a l ihl =>
    rw [List.countP_cons, List.countP_cons, List.countP_cons, ihl]
    cases hp : p a <;> cases hq : q a <;> simp [hp, hq] <;> omega

theorem countP_congr_local (p q : String → Bool) : ∀ l : List String,
    (∀ a ∈ l, p a = q a) → l.countP p = l.countP q := by
  intro l
  induction l with
  | nil =>
    intro _
    rfl
  | cons a l ihl =>
    intro h
    rw [List.countP_cons, List.countP_cons,
      ihl (fun b hb => h b (List.mem_cons_of_mem a hb)),
      h a (List.mem_cons_self a l)]

theorem countP_forcing (p q : String → Bool) : ∀ l : List String,
    (∀ a ∈ l, q a = true → p a = true) → l.countP p ≤ l.countP q →
    ∀ a ∈ l, p a = true → q a = true := by
  intro l
  induction l with
  | nil =>
    intro _ _ a ha _
    exact absurd ha (List.not_mem_nil a)
  | cons b l ihl =>
    intro himp hle a ha hpa
    have himpT : ∀ x ∈ l, q x = true → p x = true :=
      fun x hx => himp x (List.mem_cons_of_mem b hx)
    have hmono : l.countP q ≤ l.countP p := List.countP_mono_left himpT
    rw [List.countP_cons, List.countP_cons] at hle
    cases hpb : p b <;> cases hqb : q b
    · simp only [hpb, hqb] at hle
      rcases List.mem_cons.mp ha with rfl | hal
      · rw [hpa] at hpb
        cases hpb
      · exact ihl himpT (by simp at hle; omega) a hal hpa
    · have hhead := himp b (List.mem_cons_self b l) hqb
      rw [hhead] at hpb
      cases hpb
    · exfalso
      simp only [hpb, hqb] at hle
      simp at hle
      omega
    · simp only [hpb, hqb] at hle
      rcases List.mem_cons.mp ha with rfl | hal
      · exact hqb
      · exact ihl himpT (by simp at hle; omega) a hal hpa

/-! ### In-degree event bookkeeping -/

theorem applyEvents_cons (d : String) (E : List String) (deg : String → Int)
    (acc : List String) :
    applyEvents (d :: E) deg acc =
      applyEvents E (fun x => if x = d then deg d - 1 else deg x)
        (if deg d - 1 = 0 then acc ++ [d] else acc) := rfl

theorem applyEvents_fst : ∀ (E : List String) (deg : String → Int)
    (acc : List String) (x : String),
    (applyEvents E deg acc).1 x = deg x - (E.count x : Int) := by
  intro E
  induction E with
  | nil =>
    intro deg acc x
    simp [applyEvents]
  | cons d E ihE =>
    intro deg acc x
    rw [applyEvents_cons, ihE]
    by_cases hxd : x = d
    · subst hxd
      rw [if_pos rfl, List.count_cons_self]
      push_cast
      ring
    · rw [if_neg hxd, List.count_cons_of_ne hxd]

theorem applyEvents_snd_mem : ∀ (E : List String) (deg : String → Int)
    (acc : List String) (x : String),
    x ∈ (applyEvents E deg acc).2 ↔
      x ∈ acc ∨ (1 ≤ deg x ∧ deg x ≤ (E.count x : Int)) := by
  intro E
  induction E with
  | nil =>
    intro deg acc x
    constructor
    · intro h
      exact Or.inl h
    · rintro (h | ⟨h1, h2⟩)
      · exact h
      · exfalso
        simp at h2
        omega
  | cons d E ihE =>
    intro deg acc x
    rw [applyEvents_cons, ihE]
    by_cases hxd : x = d
    · subst hxd
      rw [if_pos rfl, List.count_cons_self]
      by_cases hz : deg x - 1 = 0
      · rw [if_pos hz]
        constructor
        · intro _
          right
          push_cast
          omega
        · intro _
          exact Or.inl (List.mem_append_right _ (List.mem_singleton_self x))
      · rw [if_neg hz]
        apply or_congr Iff.rfl
        push_cast
        constructor
        · intro h
          omega
        · intro h
          omega
    · rw [if_neg hxd, List.count_cons_of_ne hxd]
      apply or_congr _ Iff.rfl
      by_cases hz : deg d - 1 = 0
      · rw [if_pos hz]
        simp [List.mem_append, hxd]
      · rw [if_neg hz]

theorem applyEvents_snd_nodup : ∀ (E : List String) (deg : String → Int)
    (acc : List String), acc.Nodup → (∀ x ∈ acc, deg x ≤ 0) →
    (applyEvents E deg acc).2.Nodup := by
  intro E
  induction E with
  | nil =>
    intro deg acc h _
    exact h
  | cons d E ihE =>
    intro deg acc hnd hle
    rw [applyEvents_cons]
    by_cases hz : deg d - 1 = 0
    · rw [if_pos hz]
      apply ihE
      · refine List.Nodup.append hnd (List.nodup_singleton d) ?_
        intro a ha had
        rw [List.mem_singleton] at had
        subst had
        have := hle a ha
        omega
      · intro x hx
        rcases List.mem_append.mp hx with hxa | hxd
        · show (if x = d then deg d - 1 else deg x) ≤ 0
          by_cases hxd2 : x = d
          · rw [if_pos hxd2]
            omega
          · rw [if_neg hxd2]
            exact hle x hxa
        · rw [List.mem_singleton] at hxd
          subst hxd
          show (if x = x then deg x - 1 else deg x) ≤ 0
          rw [if_pos rfl]
          omega
    · rw [if_neg hz]
      apply ihE _ _ hnd
      intro x hx
      show (if x = d then deg d - 1 else deg x) ≤ 0
      by_cases hxd2 : x = d
      · rw [if_pos hxd2]
        have := hle x hx
        rw [hxd2] at this
        omega
      · rw [if_neg hxd2]
        exact hle x hx

theorem count_map_const (y x : String) : ∀ l : List String,
    ((l.map (fun _ => y)).count x) = if y = x then l.length else 0 := by
  intro l
  induction l with
  | nil => simp
  | cons a l ihl =>
    rw [List.map_cons]
    by_cases h : y = x
    · subst h
      rw [List.count_cons_self, ihl, if_pos rfl, if_pos rfl, List.length_cons]
    · rw [List.count_cons_of_ne (fun he => h he.symm), ihl, if_neg h, if_neg h]

theorem count_flatMapDeps (d x : String) :
    ∀ l : List (String × ServiceConfig), (l.map Prod.fst).Nodup →
    ((l.flatMap (fun p => ((p.2.dependsOn.filter (fun e => e == d)).map
        (fun _ => p.1)))).count x) =
      (match l.find? (fun p => p.1 == x) with
        | some p => (p.2.dependsOn.filter (fun e => e == d)).length
        | none => 0) := by
  intro l
  induction l with
  | nil =>
    intro _
    rfl
  | cons p l ihl =>
    intro hnd
    rw [List.map_cons, List.nodup_cons] at hnd
    obtain ⟨hp1, hnd2⟩ := hnd
    rw [List.flatMap_cons, List.count_append, count_map_const, ihl hnd2]
    by_cases hpx : p.1 = x
    · have hfind : l.find? (fun q => q.1 == x) = none := by
        rw [List.find?_eq_none]
        intro q hq
        simp only [beq_iff_eq]
        intro hqx
        apply hp1
        rw [hpx, ← hqx]
        exact List.mem_map_of_mem Prod.fst hq
      have hhead : (p :: l).find? (fun q => q.1 == x) = some p :=
        List.find?_cons_of_pos _ (beq_iff_eq.mpr hpx)
      rw [hfind, hhead, if_pos hpx]
      simp
    · have hhead : (p :: l).find? (fun q => q.1 == x) =
          l.find? (fun q => q.1 == x) :=
        List.find?_cons_of_neg _ (by simp [hpx])
      rw [hhead, if_neg hpx]
      omega

theorem count_dependentsOf (config : WorkspaceConfig)
    (hnd : (serviceNames config).Nodup) (d x : String) :
    (dependentsOf config d).count x = (depsOfService config x).count d := by
  unfold dependentsOf
  rw [count_flatMapDeps d x config.services hnd]
  unfold depsOfService findService
  cases hf : config.services.find? (fun p => p.1 == x) with
  | none => rfl
  | some p =>
    simp only [Option.map_some, Option.getD_some]
    show (p.2.dependsOn.filter (fun e => e == d)).length =
      p.2.dependsOn.countP (fun e => e == d)
    exact (List.countP_eq_length_filter _ _).symm

theorem countP_mem_cons (c : String) (cs : List String) (hc : c ∉ cs) :
    ∀ ds : List String,
    ds.countP (fun e => decide (e ∈ c :: cs)) =
      ds.count c + ds.countP (fun e => decide (e ∈ cs)) := by
  intro ds
  induction ds with
  | nil => rfl
  | cons a ds ihd =>
    rw [List.countP_cons, List.countP_cons, ihd, List.count_cons]
    by_cases hac : a = c
    · subst hac
      have h1 : decide (a ∈ a :: cs) = true := by simp
      have h2 : decide (a ∈ cs) = false := by simp [hc]
      rw [h1, h2]
      simp
      omega
    · have h1 : decide (a ∈ c :: cs) = decide (a ∈ cs) := by
        simp [List.mem_cons, hac]
      rw [h1]
      have h2 : (a == c) = false := beq_eq_false_iff_ne.mpr hac
      rw [h2]
      by_cases h3 : decide (a ∈ cs) = true
      · rw [h3]
        simp
        omega
      · rw [Bool.not_eq_true] at h3
        rw [h3]
        simp

theorem count_decEvents (config : WorkspaceConfig)
    (hnd : (serviceNames config).Nodup) (x : String) :
    ∀ current : List String, current.Nodup →
    ((decEvents config current).count x) =
      (depsOfService config x).countP (fun e => decide (e ∈ current)) := by
  intro current
  induction current with
  | nil =>
    intro _
    simp [decEvents]
  | cons c cs ihc =>
    intro hndc
    rw [List.nodup_cons] at hndc
    obtain ⟨hc, hnd2⟩ := hndc
    have hstep : decEvents config (c :: cs) =
        dependentsOf config c ++ decEvents config cs := by
      unfold decEvents
      rw [List.flatMap_cons]
    rw [hstep, List.count_append, count_dependentsOf config hnd c x, ihc hnd2,
      countP_mem_cons c cs hc]

theorem hasCycle_of_succ (config : WorkspaceConfig) (S : List String)
    (hne : S ≠ []) (hstep : ∀ x ∈ S, ∃ d, d ∈ S ∧ Edge config x d) :
    HasCycle config := by
  obtain ⟨x0, hx0⟩ := List.exists_mem_of_ne_nil S hne
  choose f hfS hfE using hstep
  let seq : Nat → {x : String // x ∈ S} := fun n =>
    Nat.rec ⟨x0, hx0⟩ (fun _ p => ⟨f p.1 p.2, hfS p.1 p.2⟩) n
  have hsucc : ∀ n, Edge config (seq n).1 (seq (n + 1)).1 := fun n =>
    hfE (seq n).1 (seq n).2
  have hchain : ∀ k n,
      Relation.TransGen (Edge config) (seq n).1 (seq (n + k + 1)).1 := by
    intro k
    induction k with
    | zero =>
      intro n
      exact Relation.TransGen.single (hsucc n)
    | succ k ihk =>
      intro n
      exact Relation.TransGen.tail (ihk n) (hsucc (n + k + 1))
  have hmaps : ∀ i ∈ Finset.range (S.length + 1),
      (fun n => (seq n).1) i ∈ S.toFinset := by
    intro i _
    exact List.mem_toFinset.mpr (seq i).2
  have hcard : S.toFinset.card < (Finset.range (S.length + 1)).card := by
    rw [Finset.card_range]
    have := S.toFinset_card_le
    omega
  obtain ⟨i, hi, j, hj, hij, heq⟩ :=
    Finset.exists_ne_map_eq_of_card_lt_of_maps_to hcard hmaps
  rcases Nat.lt_or_ge i j with hlt | hge
  · refine ⟨(seq i).1, ?_⟩
    have hch := hchain (j - i - 1) i
    have hidx : i + (j - i - 1) + 1 = j := by omega
    rw [hidx] at hch
    rw [← heq] at hch
    exact hch
  · have hlt2 : j < i := by omega
    refine ⟨(seq j).1, ?_⟩
    have hch := hchain (i - j - 1) j
    have hidx : j + (i - j - 1) + 1 = i := by omega
    rw [hidx] at hch
    rw [heq] at hch
    exact hch

/-! ### The Kahn layer loop invariant -/

structure KahnInv (config : WorkspaceConfig) (deg : String → Int)
    (current : List String) (layers : List (List String)) : Prop where
  nd : (layers.flatten ++ current).Nodup
  inNames : ∀ x ∈ layers.flatten ++ current, x ∈ serviceNames config
  degEq : ∀ x ∈ serviceNames config,
    deg x = ((depsOfService config x).countP
      (fun d => !decide (d ∈ layers.flatten)) : Int)
  curClosed : ∀ x ∈ current, ∀ d ∈ depsOfService config x,
    d ∈ layers.flatten
  procClosed : ∀ x ∈ layers.flatten, ∀ d ∈ depsOfService config x,
    d ∈ layers.flatten
  complete : ∀ x ∈ serviceNames config, x ∉ layers.flatten → x ∉ current →
    ∃ d ∈ depsOfService config x, d ∉ layers.flatten
  earlier : ∀ j, ∀ s ∈ layers.getD j [], ∀ d ∈ depsOfService config s,
    ∃ i, i < j ∧ d ∈ layers.getD i []
  sortedL : ∀ l ∈ layers, l.Pairwise (fun a b => strLe a b = true)
  sortedC : current.Pairwise (fun a b => strLe a b = true)

theorem kahnLoop_succ (config : WorkspaceConfig) (fuel : Nat)
    (deg : String → Int) (current : List String)
    (layers : List (List String)) (remaining : Int) :
    kahnLoop config (fuel + 1) deg current layers remaining =
      if current.isEmpty then (layers, remaining)
      else
        kahnLoop config fuel
          (applyEvents (decEvents config current) deg []).1
          (sortNames (applyEvents (decEvents config current) deg []).2)
          (layers ++ [current]) (remaining - current.length) := rfl

/-- The Kahn peeling loop: under the layer invariant, with enough fuel and
an acyclic graph it consumes every service, leaving remaining = 0 and
correct, sorted, dependency-ordered layers. -/
theorem kahnLoop_master (config : WorkspaceConfig) (hrefs : ValidRefs config)
    (hnames : (serviceNames config).Nodup) (hacy : ¬ HasCycle config) :
    ∀ fuel (deg : String → Int) (current : List String)
      (layers : List (List String)) (remaining : Int),
    KahnInv config deg current layers →
    remaining = ((serviceNames config).length : Int) -
      (layers.flatten.length : Int) →
    (serviceNames config).length + 1 ≤ fuel + layers.flatten.length →
    ∃ L, kahnLoop config fuel deg current layers remaining = (L, 0) ∧
      L.flatten.Nodup ∧
      (∀ x, x ∈ L.flatten ↔ x ∈ serviceNames config) ∧
      (∀ j, ∀ s ∈ L.getD j [], ∀ d ∈ depsOfService config s,
        ∃ i, i < j ∧ d ∈ L.getD i []) ∧
      (∀ l ∈ L, l.Pairwise (fun a b => strLe a b = true)) := by
  intro fuel
  induction fuel with
  | zero =>
    intro deg current layers remaining hinv hrem hfuel
    exfalso
    have hndP : layers.flatten.Nodup := hinv.nd.of_append_left
    have hsub : ∀ x ∈ layers.flatten, x ∈ serviceNames config :=
      fun x hx => hinv.inNames x (List.mem_append_left _ hx)
    have hlen : layers.flatten.length ≤ (serviceNames config).length :=
      (List.subperm_of_subset hndP hsub).length_le
    omega
  | succ fuel ihf =>
    intro deg current layers remaining hinv hrem hfuel
    cases hcur : current with
    | nil =>
      subst hcur
      have hPN : ∀ x ∈ serviceNames config, x ∈ layers.flatten := by
        by_contra hex
        push_neg at hex
        obtain ⟨x, hxN, hxP⟩ := hex
        have hmemS : ∀ y, y ∈ (serviceNames config).filter
            (fun n => !decide (n ∈ layers.flatten)) ↔
            (y ∈ serviceNames config ∧ y ∉ layers.flatten) := by
          intro y
          rw [List.mem_filter]
          simp
        have hxS : x ∈ (serviceNames config).filter
            (fun n => !decide (n ∈ layers.flatten)) :=
          (hmemS x).mpr ⟨hxN, hxP⟩
        apply hacy
        apply hasCycle_of_succ config _ (List.ne_nil_of_mem hxS)
        intro y hy
        obtain ⟨hyN, hyP⟩ := (hmemS y).mp hy
        obtain ⟨d, hdDep, hdP⟩ :=
          hinv.complete y hyN hyP (List.not_mem_nil y)
        exact ⟨d, (hmemS d).mpr
          ⟨depsOf_subset_names hrefs y d hdDep, hdP⟩, hdDep⟩
      have hsub : ∀ x ∈ layers.flatten, x ∈ serviceNames config :=
        fun x hx => hinv.inNames x (List.mem_append_left _ hx)
      have hndP : layers.flatten.Nodup := hinv.nd.of_append_left
      have hlen1 : layers.flatten.length ≤ (serviceNames config).length :=
        (List.subperm_of_subset hndP hsub).length_le
      have hlen2 : (serviceNames config).length ≤ layers.flatten.length :=
        (List.subperm_of_subset hnames hPN).length_le
      have hrem0 : remaining = 0 := by
        rw [hrem]
        omega
      refine ⟨layers, ?_, hndP, fun x => ⟨fun hx => hsub x hx,
        fun hx => hPN x hx⟩, hinv.earlier, hinv.sortedL⟩
      have hempty : ([] : List String).isEmpty = true := rfl
      rw [kahnLoop_succ, if_pos hempty, hrem0]
    | cons c cs =>
      subst hcur
      obtain ⟨hndP, hndC, hdisj⟩ := List.nodup_append.mp hinv.nd
      have hfl : (layers ++ [c :: cs]).flatten =
          layers.flatten ++ (c :: cs) := by
        simp
      have hdepsubN : ∀ z x, x ∈ dependentsOf config z →
          x ∈ serviceNames config := by
        intro z x hx
        unfold dependentsOf at hx
        rw [List.mem_flatMap] at hx
        obtain ⟨p, hp, hxp⟩ := hx
        rw [List.mem_map] at hxp
        obtain ⟨_, _, rfl⟩ := hxp
        exact List.mem_map_of_mem Prod.fst hp
      have hE_names : ∀ x ∈ decEvents config (c :: cs),
          x ∈ serviceNames config := by
        intro x hx
        unfold decEvents at hx
        rw [List.mem_flatMap] at hx
        obtain ⟨z, _, hxz⟩ := hx
        exact hdepsubN z x hxz
      have hcnt : ∀ x, (decEvents config (c :: cs)).count x =
          (depsOfService config x).countP (fun e => decide (e ∈ c :: cs)) :=
        fun x => count_decEvents config hnames x (c :: cs) hndC
      have hpm : ∀ x, x ∈ (applyEvents (decEvents config (c :: cs)) deg []).2 ↔
          (1 ≤ deg x ∧
            deg x ≤ ((decEvents config (c :: cs)).count x : Int)) := by
        intro x
        rw [applyEvents_snd_mem]
        simp
      have hpushN : ∀ x ∈ (applyEvents (decEvents config (c :: cs)) deg []).2,
          x ∈ serviceNames config := by
        intro x hx
        obtain ⟨h1, h2⟩ := (hpm x).mp hx
        have hcp : 0 < (decEvents config (c :: cs)).count x := by omega
        exact hE_names x (List.count_pos_iff.mp hcp)
      have hdegC : ∀ x ∈ serviceNames config,
          deg x = ((depsOfService config x).countP
            (fun e => !decide (e ∈ layers.flatten)) : Int) := hinv.degEq
      have hpushDeps : ∀ x ∈ (applyEvents (decEvents config (c :: cs)) deg []).2,
          (∀ d ∈ depsOfService config x,
            d ∈ layers.flatten ++ (c :: cs)) ∧
          ¬ (∀ d ∈ depsOfService config x, d ∈ layers.flatten) := by
        intro x hx
        have hxN := hpushN x hx
        obtain ⟨h1, h2⟩ := (hpm x).mp hx
        rw [hdegC x hxN] at h1 h2
        rw [hcnt x] at h2
        have h1n : 1 ≤ (depsOfService config x).countP
            (fun e => !decide (e ∈ layers.flatten)) := by exact_mod_cast h1
        have h2n : (depsOfService config x).countP
            (fun e => !decide (e ∈ layers.flatten)) ≤
            (depsOfService config x).countP
              (fun e => decide (e ∈ c :: cs)) := by
          exact_mod_cast h2
        have himp : ∀ a ∈ depsOfService config x,
            decide (a ∈ c :: cs) = true →
            (!decide (a ∈ layers.flatten)) = true := by
          intro a _ hq
          simp only [decide_eq_true_eq] at hq
          simp only [Bool.not_eq_true', decide_eq_false_iff_not]
          exact fun hp => hdisj hp hq
        have hforce := countP_forcing _ _ (depsOfService config x) himp h2n
        constructor
        · intro d hd
          rw [List.mem_append]
          by_cases hdP : d ∈ layers.flatten
          · exact Or.inl hdP
          · right
            have := hforce d hd (by simp [hdP])
            simpa using this
        · intro hall
          have hz : (depsOfService config x).countP
              (fun e => !decide (e ∈ layers.flatten)) = 0 := by
            rw [List.countP_eq_zero]
            intro a ha
            simp [hall a ha]
          omega
      have hpushNew : ∀ x ∈ (applyEvents (decEvents config (c :: cs)) deg []).2,
          x ∉ layers.flatten ++ (c :: cs) := by
        intro x hx hmem
        have hxN := hpushN x hx
        obtain ⟨h1, _⟩ := (hpm x).mp hx
        rw [hdegC x hxN] at h1
        have hall : ∀ d ∈ depsOfService config x, d ∈ layers.flatten := by
          rcases List.mem_append.mp hmem with hP | hC
          · exact hinv.procClosed x hP
          · exact hinv.curClosed x hC
        have hz : (depsOfService config x).countP
            (fun e => !decide (e ∈ layers.flatten)) = 0 := by
          rw [List.countP_eq_zero]
          intro a ha
          simp [hall a ha]
        rw [hz] at h1
        omega
      have hpushIn : ∀ x ∈ serviceNames config,
          (∀ d ∈ depsOfService config x,
            d ∈ layers.flatten ++ (c :: cs)) →
          (∃ d ∈ depsOfService config x, d ∉ layers.flatten) →
          x ∈ (applyEvents (decEvents config (c :: cs)) deg []).2 := by
        intro x hxN hsub2 hwit
        rw [hpm, hdegC x hxN, hcnt x]
        obtain ⟨d0, hd0, hd0P⟩ := hwit
        constructor
        · have hpos : 0 < (depsOfService config x).countP
              (fun e => !decide (e ∈ layers.flatten)) := by
            rw [List.countP_pos_iff]
            exact ⟨d0, hd0, by simp [hd0P]⟩
          omega
        · have hmono : (depsOfService config x).countP
              (fun e => !decide (e ∈ layers.flatten)) ≤
              (depsOfService config x).countP
                (fun e => decide (e ∈ c :: cs)) := by
            apply List.countP_mono_left
            intro a ha hp
            have hanP : a ∉ layers.flatten := by simpa using hp
            have hin := hsub2 a ha
            rw [List.mem_append] at hin
            rcases hin with h | h
            · exact absurd h hanP
            · simpa using h
          exact_mod_cast hmono
      have hdeg2 : ∀ x ∈ serviceNames config,
          (applyEvents (decEvents config (c :: cs)) deg []).1 x =
          ((depsOfService config x).countP
            (fun e => !decide (e ∈ (layers ++ [c :: cs]).flatten)) : Int) := by
        intro x hxN
        rw [applyEvents_fst, hdegC x hxN, hcnt x]
        have hsplit := countP_split (fun e => !decide (e ∈ layers.flatten))
          (fun e => decide (e ∈ c :: cs)) (depsOfService config x)
        have h1 : (depsOfService config x).countP
            (fun e => !decide (e ∈ layers.flatten) &&
              decide (e ∈ c :: cs)) =
            (depsOfService config x).countP
              (fun e => decide (e ∈ c :: cs)) := by
          apply countP_congr_local
          intro a _
          by_cases ha : a ∈ c :: cs
          · have hanp : a ∉ layers.flatten := fun hap => hdisj hap ha
            simp [ha, hanp]
          · simp [ha]
        have h2 : (depsOfService config x).countP
            (fun e => !decide (e ∈ layers.flatten) &&
              !decide (e ∈ c :: cs)) =
            (depsOfService config x).countP
              (fun e => !decide (e ∈ (layers ++ [c :: cs]).flatten)) := by
          apply countP_congr_local
          intro a _
          rw [hfl]
          by_cases h3 : a ∈ layers.flatten <;> by_cases h4 : a ∈ c :: cs <;>
            simp [h3, h4, List.mem_append]
        rw [← h2]
        omega
      have hinv2 : KahnInv config
          (applyEvents (decEvents config (c :: cs)) deg []).1
          (sortNames (applyEvents (decEvents config (c :: cs)) deg []).2)
          (layers ++ [c :: cs]) := by
        refine ⟨?_, ?_, ?_, ?_, ?_, ?_, ?_, ?_, ?_⟩
        · rw [hfl, List.nodup_append]
          refine ⟨hinv.nd, nodup_sortNames (applyEvents_snd_nodup _ _ _
            List.nodup_nil (fun x hx => absurd hx (List.not_mem_nil x))), ?_⟩
          intro a ha ha2
          rw [mem_sortNames] at ha2
          exact hpushNew a ha2 ha
        · intro x hx
          rw [hfl] at hx
          rcases List.mem_append.mp hx with h | h
          · rcases List.mem_append.mp h with h2 | h2
            · exact hinv.inNames x (List.mem_append_left _ h2)
            · exact hinv.inNames x (List.mem_append_right _ h2)
          · exact hpushN x ((mem_sortNames x _).mp h)
        · exact hdeg2
        · intro x hx d hd
          rw [mem_sortNames] at hx
          rw [hfl]
          exact (hpushDeps x hx).1 d hd
        · intro x hx d hd
          rw [hfl] at hx ⊢
          rcases List.mem_append.mp hx with h | h
          · exact List.mem_append_left _ (hinv.procClosed x h d hd)
          · exact List.mem_append_left _ (hinv.curClosed x h d hd)
        · intro x hxN hxP hxC
          by_contra hno
          push_neg at hno
          rw [hfl] at hxP
          have hxP0 : x ∉ layers.flatten :=
            fun h => hxP (List.mem_append_left _ h)
          have hxC0 : x ∉ c :: cs :=
            fun h => hxP (List.mem_append_right _ h)
          obtain ⟨d, hd, hdP⟩ := hinv.complete x hxN hxP0 hxC0
          have hx2 : x ∈ (applyEvents (decEvents config (c :: cs)) deg []).2 := by
            apply hpushIn x hxN
            · intro e he
              have hee := hno e he
              rw [hfl] at hee
              exact hee
            · exact ⟨d, hd, hdP⟩
          exact hxC ((mem_sortNames x _).mpr hx2)
        · intro j s hs d hd
          rcases Nat.lt_trichotomy j layers.length with hj | hj | hj
          · rw [getD_append_lt [] layers [c :: cs] j hj] at hs
            obtain ⟨i, hij, hmem⟩ := hinv.earlier j s hs d hd
            refine ⟨i, hij, ?_⟩
            rw [getD_append_lt [] layers [c :: cs] i (by omega)]
            exact hmem
          · subst hj
            rw [getD_append_len] at hs
            have hs2 : s ∈ c :: cs := hs
            have hdP : d ∈ layers.flatten := hinv.curClosed s hs2 d hd
            obtain ⟨i, hi, hmem⟩ := (mem_flatten_getD d layers).mp hdP
            refine ⟨i, hi, ?_⟩
            rw [getD_append_lt [] layers [c :: cs] i hi]
            exact hmem
          · exfalso
            rw [getD_of_ge [] (layers ++ [c :: cs]) j
              (by rw [List.length_append, List.length_singleton]; omega)] at hs
            exact List.not_mem_nil s hs
        · intro l hl
          rcases List.mem_append.mp hl with h | h
          · exact hinv.sortedL l h
          · rw [List.mem_singleton] at h
            subst h
            exact hinv.sortedC
        · exact sortNames_pairwise _
      have hrem2 : remaining - ((c :: cs).length : Int) =
          ((serviceNames config).length : Int) -
          ((layers ++ [c :: cs]).flatten.length : Int) := by
        rw [hfl, List.length_append, hrem]
        push_cast
        ring
      have hfuel2 : (serviceNames config).length + 1 ≤
          fuel + (layers ++ [c :: cs]).flatten.length := by
        rw [hfl, List.length_append]
        simp only [List.length_cons]
        omega
      have hne2 : ¬ ((c :: cs).isEmpty = true) := by simp
      rw [kahnLoop_succ, if_neg hne2]
      exact ihf _ _ _ _ hinv2 hrem2 hfuel2

theorem kahnInit (config : WorkspaceConfig)
    (hnames : (serviceNames config).Nodup) :
    KahnInv config (initialDegrees config)
      (sortNames ((serviceNames config).filter
        (fun n => initialDegrees config n == 0))) [] := by
  have hmemF : ∀ x, x ∈ sortNames ((serviceNames config).filter
      (fun n => initialDegrees config n == 0)) ↔
      (x ∈ serviceNames config ∧ initialDegrees config x = 0) := by
    intro x
    rw [mem_sortNames, List.mem_filter]
    simp
  refine ⟨?_, ?_, ?_, ?_, ?_, ?_, ?_, ?_, ?_⟩
  · simp only [List.flatten_nil, List.nil_append]
    exact nodup_sortNames (hnames.filter _)
  · intro x hx
    simp only [List.flatten_nil, List.nil_append] at hx
    exact ((hmemF x).mp hx).1
  · intro x _
    have hc : (depsOfService config x).countP
        (fun d => !decide (d ∈ ([] : List (List String)).flatten)) =
        (depsOfService config x).length := by
      rw [countP_congr_local _ (fun _ => true) _ (by intro a _; simp)]
      exact congrFun List.countP_true (depsOfService config x)
    unfold initialDegrees
    rw [hc]
  · intro x hx d hd
    have hx2 := (hmemF x).mp hx
    have hdeg := hx2.2
    unfold initialDegrees at hdeg
    have hlen : (depsOfService config x).length = 0 := by exact_mod_cast hdeg
    rw [List.length_eq_zero] at hlen
    rw [hlen] at hd
    exact absurd hd (List.not_mem_nil d)
  · intro x hx
    simp at hx
  · intro x hxN _ hxC
    cases hdx : depsOfService config x with
    | nil =>
      exfalso
      apply hxC
      rw [hmemF]
      refine ⟨hxN, ?_⟩
      unfold initialDegrees
      rw [hdx]
      rfl
    | cons d ds =>
      refine ⟨d, List.mem_cons_self d ds, ?_⟩
      simp
  · intro j s hs
    rw [getD_of_ge [] [] j (by simp)] at hs
    exact absurd hs (List.not_mem_nil s)
  · intro l hl
    exact absurd hl (List.not_mem_nil l)
  · exact sortNames_pairwise _

theorem findUnknownDep_none (config : WorkspaceConfig)
    (hrefs : ValidRefs config) :
    ∀ l : List (String × ServiceConfig), (∀ p ∈ l, p ∈ config.services) →
    findUnknownDep config l = none := by
  intro l
  induction l with
  | nil =>
    intro _
    rfl
  | cons p l ihl =>
    intro hsub
    obtain ⟨name, svc⟩ := p
    rw [findUnknownDep]
    have hfind : svc.dependsOn.find?
        (fun d => !(serviceNames config).contains d) = none := by
      rw [List.find?_eq_none]
      intro d hd
      have hmem : d ∈ serviceNames config :=
        hrefs (name, svc) (hsub (name, svc) (List.mem_cons_self _ l)) d hd
      have hcontains : (serviceNames config).contains d = true :=
        List.elem_iff.mpr hmem
      rw [hcontains]
      simp
    rw [hfind]
    exact ihl (fun q hq => hsub q (List.mem_cons_of_mem _ hq))

/-- Any rank function that strictly decreases along dependency edges
certifies acyclicity. -/
theorem acyclic_of_rank (config : WorkspaceConfig) (rank : String → Nat)
    (h : ∀ x ∈ serviceNames config, ∀ y ∈ depsOfService config x,
      rank y < rank x) :
    ¬ HasCycle config := by
  rintro ⟨v, hT⟩
  have hd : ∀ a b, Relation.TransGen (Edge config) a b → rank b < rank a := by
    intro a b hab
    induction hab with
    | single hxy => exact h _ (edge_source_mem config hxy) _ hxy
    | tail hab hbc ih =>
      exact lt_trans (h _ (edge_source_mem config hbc) _ hbc) ih
  exact absurd (hd v v hT) (lt_irrefl _)

/-- C1: for every workspace config with valid dependency references, no
dependency cycle, and distinct service names, buildDag succeeds; the flat
union of its layers is exactly the set of service names with no name
repeated, every dependency of a service sits in a strictly earlier layer,
and each layer is sorted by the lexicographic string order. -/
theorem buildDag_layers (config : WorkspaceConfig)
    (hnames : (serviceNames config).Nodup) (hrefs : ValidRefs config)
    (hacy : ¬ HasCycle config) :
    ∃ res, buildDag config = Except.ok res ∧
      res.serviceCount = (serviceNames config).length ∧
      res.layers.flatten.Nodup ∧
      (∀ x, x ∈ res.layers.flatten ↔ x ∈ serviceNames config) ∧
      (∀ j, ∀ s ∈ res.layers.getD j [], ∀ d ∈ depsOfService config s,
        ∃ i, i < j ∧ d ∈ res.layers.getD i []) ∧
      (∀ l ∈ res.layers, l.Pairwise (fun a b => strLe a b = true)) := by
  have hfind := findUnknownDep_none config hrefs config.services
    (fun p hp => hp)
  rcases detectCycles_run config hrefs with ⟨_, hdet⟩ | ⟨hcyc, _⟩
  swap
  · exact absurd hcyc hacy
  obtain ⟨L, hrun, hndL, hmemL, hearlier, hsorted⟩ :=
    kahnLoop_master config hrefs hnames hacy
      ((serviceNames config).length + 1)
      (initialDegrees config)
      (sortNames ((serviceNames config).filter
        (fun n => initialDegrees config n == 0)))
      [] ((serviceNames config).length : Int)
      (kahnInit config hnames) (by simp) (by simp)
  refine ⟨{ layers := L, serviceCount := (serviceNames config).length },
    ?_, rfl, hndL, hmemL, hearlier, hsorted⟩
  unfold buildDag
  rw [hfind, hdet]
  simp only [hrun]
  simp

/-- C2: for every workspace config with valid dependency references whose
graph has a cycle, buildDag fails with the arrow-joined cycle diagnostic,
and the joined parts contain every node of an actual dependency cycle. -/
theorem buildDag_cycle (config : WorkspaceConfig) (hrefs : ValidRefs config)
    (hcyc : HasCycle config) :
    ∃ parts cyc, buildDag config =
        Except.error ("Dependency cycle detected: " ++ arrowJoin parts) ∧
      IsCycleList config cyc ∧ ∀ x ∈ cyc, x ∈ parts := by
  have hfind := findUnknownDep_none config hrefs config.services
    (fun p hp => hp)
  rcases detectCycles_run config hrefs with ⟨hnc, _⟩ | ⟨_, m, hdet, hgood⟩
  · exact absurd hcyc hnc
  obtain ⟨parts, hm, cyc, hcl, hsub⟩ := hgood
  refine ⟨parts, cyc, ?_, hcl, hsub⟩
  unfold buildDag
  rw [hfind, hdet, hm]

def dagAcyclicConfig : WorkspaceConfig :=
  { name := "w"
    services := [("api", { dependsOn := ["db"] }), ("db", {}),
      ("web", { dependsOn := ["db", "api"] })] }

def dagRank : String → Nat :=
  fun s => if s = "db" then 0 else if s = "api" then 1 else 2

/-- C1 witness: a three-service diamond-ish config satisfies the
hypotheses and buildDag lays it out. -/
theorem buildDag_layers_witness :
    (serviceNames dagAcyclicConfig).Nodup ∧ ValidRefs dagAcyclicConfig ∧
      ∃ res, buildDag dagAcyclicConfig = Except.ok res ∧
        res.serviceCount = (serviceNames dagAcyclicConfig).length ∧
        res.layers.flatten.Nodup ∧
        (∀ x, x ∈ res.layers.flatten ↔ x ∈ serviceNames dagAcyclicConfig) ∧
        (∀ j, ∀ s ∈ res.layers.getD j [],
          ∀ d ∈ depsOfService dagAcyclicConfig s,
          ∃ i, i < j ∧ d ∈ res.layers.getD i []) ∧
        (∀ l ∈ res.layers, l.Pairwise (fun a b => strLe a b = true)) :=
  ⟨by decide, by decide,
    buildDag_layers dagAcyclicConfig (by decide) (by decide)
      (acyclic_of_rank dagAcyclicConfig dagRank (by decide))⟩

def dagCycleConfig : WorkspaceConfig :=
  { name := "w"
    services := [("a", { dependsOn := ["b"] }), ("b", { dependsOn := ["c"] }),
      ("c", { dependsOn := ["a"] })] }

/-- C2 witness: the documented a to b to c to a cycle satisfies the
hypotheses and yields the cycle diagnostic. -/
theorem buildDag_cycle_witness :
    ValidRefs dagCycleConfig ∧ HasCycle dagCycleConfig ∧
      ∃ parts cyc, buildDag dagCycleConfig =
          Except.error ("Dependency cycle detected: " ++ arrowJoin parts) ∧
        IsCycleList dagCycleConfig cyc ∧ ∀ x ∈ cyc, x ∈ parts :=
  ⟨by decide,
    ⟨"a", Relation.TransGen.head
      (show Edge dagCycleConfig "a" "b" by decide)
      (Relation.TransGen.head
        (show Edge dagCycleConfig "b" "c" by decide)
        (Relation.TransGen.single
          (show Edge dagCycleConfig "c" "a" by decide)))⟩,
    buildDag_cycle dagCycleConfig (by decide)
      ⟨"a", Relation.TransGen.head
        (show Edge dagCycleConfig "a" "b" by decide)
        (Relation.TransGen.head
          (show Edge dagCycleConfig "b" "c" by decide)
          (Relation.TransGen.single
            (show Edge dagCycleConfig "c" "a" by decide)))⟩⟩

end Lo1

